import Mathlib

/-!
Shallow embedding of the cryptographic core of the `cryptographic-voting`
repository (Paillier-style homomorphic encryption with Shamir threshold
sharing, the zero-knowledge proof subsystem, and the mixnet shuffle engine),
together with proofs and refutations of the frozen specification claims.

Conventions used throughout the embedding:
* JavaScript `BigInt` values are modeled as `ℕ` where the source only ever
  holds non-negative values, and as `ℤ` where the source can produce negative
  intermediates (the JS `%` on `BigInt` is the truncated remainder, `Int.tmod`).
* JavaScript strings are modeled as lists of byte values (`JSStr := List ℕ`);
  all strings appearing in the claims are ASCII.
* Calls to `randomBytes` are modeled by passing the drawn values explicitly as
  arguments, so every function is a pure function of its inputs plus the
  randomness stream it consumed.
* `modPow x e m` of `bigint-crypto-utils` is `x ^ e % m`; `modInv a m` reduces
  `a` into `[0, m)` and returns the inverse there (it throws when the inverse
  does not exist; theorems that rely on an inverse carry the corresponding
  coprimality/unit hypothesis, mirroring the fact that the surrounding JS call
  only returns normally in that case).
-/

namespace Voting

/-! ### Modeled arithmetic library primitives -/

/-- `bigint-crypto-utils` `modInv a n` for a non-negative `a`: the library
returns the unique representative in `[0, n)` of the modular inverse of `a`
(and throws when `gcd(a, n) ≠ 1`; every theorem that goes through a `modInv`
call carries the corresponding coprimality hypothesis, so the value returned
here on non-invertible input is never relied upon).  The unique inverse is
computed by bounded search, which keeps the definition kernel-reducible on
concrete inputs. -/
def modInvNat (a n : ℕ) : ℕ :=
  ((List.range n).find? (fun b => a * b % n = 1)).getD 0

/-- `bigint-crypto-utils` `modInv a m` on integers: the argument is first
brought into `[0, m)` (the library's `toZn`, which is `Int.emod` for positive
`m`) and then inverted there. -/
def modInvInt (a m : ℤ) : ℤ := ((modInvNat (a % m).toNat m.toNat : ℕ) : ℤ)

/-! ### Homomorphic encryption engine (`src/models`-adjacent service file,
`HomomorphicEncryption` class) -/

/-- Paillier public key `{n, g, nsq}` as stored by `generateKeys`. -/
structure PaillierPub where
  n : ℕ
  g : ℕ
  nsq : ℕ
  deriving DecidableEq

/-- Paillier private key `{lambda, mu, n, nsq}`. -/
structure PaillierPriv where
  lambda : ℕ
  mu : ℕ
  n : ℕ
  nsq : ℕ
  deriving DecidableEq

/-- The source's `L(u, n) = (u - 1n) / n` (integer division; all call sites
pass `u ≥ 1`). -/
def L (u n : ℕ) : ℕ := (u - 1) / n

/-- `generateKeys`, as a function of the two primes produced by
`generatePrime`: `n = p·q`, `λ = lcm(p−1, q−1)`, `g = n+1`,
`μ = modInv(L(g^λ mod n²), n)`.  The JS call only returns normally when the
`modInv` exists, i.e. when `gcd(λ, n) = 1`; theorems about generated keys
carry that hypothesis. -/
def generateKeysFrom (p q : ℕ) : PaillierPub × PaillierPriv :=
  let n := p * q
  let lambda := Nat.lcm (p - 1) (q - 1)
  let g := n + 1
  let nsq := n * n
  let gLambda := g ^ lambda % nsq
  let l := L gLambda n
  let mu := modInvNat l n
  (⟨n, g, nsq⟩, ⟨lambda, mu, n, nsq⟩)

/-- Errors thrown by `encrypt`: the corrupted-key guard
(`Public key n is too small`) and exhaustion of the bounded retry loop for
the blinding factor. -/
inductive EncError where
  | invalidKey
  | randomnessFailure
  deriving DecidableEq

/-- Return value of `encrypt`: `{ciphertext, randomness}`. -/
structure EncResult where
  ciphertext : ℕ
  randomness : ℕ
  deriving DecidableEq

/-- The `do … while (gcd(r, n) !== 1n)` loop of `encrypt`: each attempt turns
the freshly drawn random bytes (modeled as the already-assembled value `b`)
into `r = b % (n − 2) + 2` and accepts the first `r` coprime to `n`; the
bounded attempt count is modeled by the finite entropy list, and exhausting
it is the `Failed to generate valid random number r` /
`Could not find coprime random number` failure. -/
def drawRandomR (n : ℕ) : List ℕ → Except EncError ℕ
  | [] => .error .randomnessFailure
  | b :: bs =>
    let r := b % (n - 2) + 2
    if Nat.gcd r n = 1 then .ok r else drawRandomR n bs

/-- `encrypt(vote, publicKey)`: rejects keys with `n ≤ 100`, draws the
blinding factor `r`, and returns `c = (g^m mod n²)·(r^n mod n²) mod n²`
together with `r`. -/
def encrypt (vote : ℕ) (pk : PaillierPub) (entropy : List ℕ) :
    Except EncError EncResult :=
  if pk.n ≤ 100 then .error .invalidKey
  else
    match drawRandomR pk.n entropy with
    | .error e => .error e
    | .ok r => .ok ⟨pk.g ^ vote % pk.nsq * (r ^ pk.n % pk.nsq) % pk.nsq, r⟩

/-- `addEncrypted`: the running product `result = (result * c) % nsq`
starting from `1n`, over the (already parsed) ciphertexts. -/
def addEncrypted (ciphertexts : List ℕ) (pk : PaillierPub) : ℕ :=
  ciphertexts.foldl (fun acc c => acc * c % pk.nsq) 1

/-- `decrypt(ciphertext, privateKey)`:
`m = L(c^λ mod n²)·μ mod n`.  (The source finishes with `Number(m)`, which is
exact for the small plaintext ranges all claims are about.) -/
def decrypt (c : ℕ) (sk : PaillierPriv) : ℕ :=
  L (c ^ sk.lambda % sk.nsq) sk.n * sk.mu % sk.n

/-! ### Shamir secret sharing (`generateSecretShares` / `reconstructSecret`) -/

/-- One Shamir share `{id, value}`: `id` is the (1-based) evaluation point, a
JS number; `value` the polynomial value, a JS `BigInt` (kept as `ℤ` because
`reconstructSecret` mixes it into signed intermediate products). -/
structure KeyShare where
  id : ℕ
  value : ℤ
  deriving DecidableEq

/-- The polynomial evaluation inside `generateSecretShares`:
`y = (y + (coefficients[j] * xPower) % modulus) % modulus` with
`xPower = (xPower * x) % modulus`, folded over the coefficient list
(all quantities non-negative, so `ℕ`). -/
def polyEvalMod (coeffs : List ℕ) (x m : ℕ) : ℕ :=
  (coeffs.foldl (fun acc c => ((acc.1 + c * acc.2 % m) % m, acc.2 * x % m))
    ((0 : ℕ), (1 : ℕ))).1

/-- `generateSecretShares(secret, n, k, modulus)` as a function of the full
coefficient list `secret :: randomCoefficients` (the source draws the `k − 1`
random coefficients below the modulus via `generateRandomBigInt`): shares are
`{id: x, value: f(x)}` for `x = 1..n`. -/
def generateSecretShares (coeffs : List ℕ) (nShares m : ℕ) : List KeyShare :=
  (List.range' 1 nShares).map fun x => ⟨x, (polyEvalMod coeffs x m : ℤ)⟩

/-- The numerator accumulator of `reconstructSecret`'s inner `j ≠ i` loop:
`numerator = (numerator * BigInt(-shares[j].id)) % modulus` (JS `%` is the
truncated remainder `Int.tmod`, so this can go negative). -/
def lagrangeNumer (m : ℤ) (others : List ℕ) : ℤ :=
  others.foldl (fun (acc : ℤ) (xj : ℕ) => Int.tmod (acc * (-(xj : ℤ))) m) 1

/-- The denominator accumulator of the same loop:
`denominator = (denominator * BigInt(shares[i].id - shares[j].id)) % modulus`.
The source interleaves both accumulators in a single loop over `j`; they are
independent, so they are modeled as two folds over the same list. -/
def lagrangeDenom (m : ℤ) (xi : ℕ) (others : List ℕ) : ℤ :=
  others.foldl (fun (acc : ℤ) (xj : ℕ) => Int.tmod (acc * ((xi : ℤ) - (xj : ℤ))) m) 1

/-- The outer loop of `reconstructSecret`: `prev` holds the already-processed
shares (most recent first), so for the current share `s` the `j ≠ i` loop
visits exactly `prev.reverse ++ rest`; the accumulator update is
`secret = (secret + (shares[i].value * lagrangeCoeff) % modulus) % modulus`
with `lagrangeCoeff = (numerator * modInv(denominator, modulus)) % modulus`. -/
def reconstructAux (m : ℤ) : List KeyShare → List KeyShare → ℤ → ℤ
  | _, [], acc => acc
  | prev, s :: rest, acc =>
    let others := (prev.reverse ++ rest).map KeyShare.id
    let num := lagrangeNumer m others
    let den := lagrangeDenom m s.id others
    let lagrangeCoeff := Int.tmod (num * modInvInt den m) m
    reconstructAux m (s :: prev) rest
      (Int.tmod (acc + Int.tmod (s.value * lagrangeCoeff) m) m)

/-- `reconstructSecret(shares, modulus)`: Lagrange interpolation at `0` with
JS truncated remainders, finished by the normalization
`secret = ((secret % modulus) + modulus) % modulus`. -/
def reconstructSecret (shares : List KeyShare) (m : ℤ) : ℤ :=
  Int.tmod (Int.tmod (reconstructAux m [] shares 0) m + m) m

/-- Exact (mod-free) view of the share polynomial
`f(z) = a₀ + a₁·z + a₂·z² + …` over any commutative ring, used to state what
`polyEvalMod` computes modulo `m`. -/
def evalPoly {R : Type _} [CommRing R] : List ℕ → R → R
  | [], _ => 0
  | c :: cs, z => (c : R) + z * evalPoly cs z

/-- The `ZMod m` value of one Lagrange term of `reconstructSecret` (node `x`
against node set `T`), used to relate the JS computation to the
interpolation identity. -/
def lagTermZ (m : ℕ) (coeffs : List ℕ) (T : Finset ℕ) (x : ℕ) : ZMod m :=
  evalPoly coeffs ((x : ℕ) : ZMod m) *
    ((∏ y ∈ T.erase x, -((y : ℕ) : ZMod m)) *
     (∏ y ∈ T.erase x, (((x : ℕ) : ZMod m) - ((y : ℕ) : ZMod m)))⁻¹)

/-! ### Byte strings and SHA-256 (node `createHash('sha256')`)

JS strings are modeled as lists of byte values (`List ℕ`); every string
appearing in the claims is ASCII.  SHA-256 is implemented concretely
(FIPS 180-4), so hash-dependent behavior can be evaluated by the kernel. -/

/-- Truncation to 32 bits. -/
def w32 (x : ℕ) : ℕ := x % 4294967296

/-- 32-bit right rotation (argument assumed `< 2³²`). -/
def rotr32 (x k : ℕ) : ℕ := w32 (x / 2 ^ k + x % 2 ^ k * 2 ^ (32 - k))

/-- 32-bit right shift. -/
def shr32 (x k : ℕ) : ℕ := x / 2 ^ k

/-- Three-way xor. -/
def xor3 (a b c : ℕ) : ℕ := Nat.xor (Nat.xor a b) c

/-- 32-bit complement. -/
def not32 (x : ℕ) : ℕ := Nat.xor x 4294967295

/-- SHA-256 Σ₀. -/
def bsig0 (x : ℕ) : ℕ := xor3 (rotr32 x 2) (rotr32 x 13) (rotr32 x 22)

/-- SHA-256 Σ₁. -/
def bsig1 (x : ℕ) : ℕ := xor3 (rotr32 x 6) (rotr32 x 11) (rotr32 x 25)

/-- SHA-256 σ₀. -/
def ssig0 (x : ℕ) : ℕ := xor3 (rotr32 x 7) (rotr32 x 18) (shr32 x 3)

/-- SHA-256 σ₁. -/
def ssig1 (x : ℕ) : ℕ := xor3 (rotr32 x 17) (rotr32 x 19) (shr32 x 10)

/-- SHA-256 choice function. -/
def chf (x y z : ℕ) : ℕ := Nat.xor (Nat.land x y) (Nat.land (not32 x) z)

/-- SHA-256 majority function. -/
def majf (x y z : ℕ) : ℕ := xor3 (Nat.land x y) (Nat.land x z) (Nat.land y z)

/-- The 64 SHA-256 round constants. -/
def sha256K : List ℕ :=
  [1116352408, 1899447441, 3049323471, 3921009573, 961987163, 1508970993,
  2453635748, 2870763221, 3624381080, 310598401, 607225278, 1426881987,
  1925078388, 2162078206, 2614888103, 3248222580, 3835390401, 4022224774,
  264347078, 604807628, 770255983, 1249150122, 1555081692, 1996064986,
  2554220882, 2821834349, 2952996808, 3210313671, 3336571891, 3584528711,
  113926993, 338241895, 666307205, 773529912, 1294757372, 1396182291,
  1695183700, 1986661051, 2177026350, 2456956037, 2730485921, 2820302411,
  3259730800, 3345764771, 3516065817, 3600352804, 4094571909, 275423344,
  430227734, 506948616, 659060556, 883997877, 958139571, 1322822218,
  1537002063, 1747873779, 1955562222, 2024104815, 2227730452, 2361852424,
  2428436474, 2756734187, 3204031479, 3329325298]

/-- Working state of the compression function. -/
structure Sha256State where
  a : ℕ
  b : ℕ
  c : ℕ
  d : ℕ
  e : ℕ
  f : ℕ
  g : ℕ
  h : ℕ
  deriving DecidableEq

/-- One step of the message-schedule extension. -/
def schedStep (ws : List ℕ) : List ℕ :=
  ws ++ [w32 (ssig1 (ws.getD (ws.length - 2) 0) + ws.getD (ws.length - 7) 0 +
    ssig0 (ws.getD (ws.length - 15) 0) + ws.getD (ws.length - 16) 0)]

/-- Iterated schedule extension (48 steps take 16 words to 64). -/
def iterateSched : ℕ → List ℕ → List ℕ
  | 0, ws => ws
  | t + 1, ws => iterateSched t (schedStep ws)

/-- One SHA-256 round. -/
def shaRound (st : Sha256State) (k w : ℕ) : Sha256State :=
  let t1 := w32 (st.h + bsig1 st.e + chf st.e st.f st.g + k + w)
  let t2 := w32 (bsig0 st.a + majf st.a st.b st.c)
  ⟨w32 (t1 + t2), st.a, st.b, st.c, w32 (st.d + t1), st.e, st.f, st.g⟩

/-- The 64 rounds over the zipped `(constant, scheduled word)` list. -/
def shaRounds : List (ℕ × ℕ) → Sha256State → Sha256State
  | [], st => st
  | kw :: rest, st => shaRounds rest (shaRound st kw.1 kw.2)

/-- Compression of one 16-word block into the chaining state. -/
def shaBlock (st : Sha256State) (ws : List ℕ) : Sha256State :=
  let st' := shaRounds (sha256K.zip (iterateSched 48 ws)) st
  ⟨w32 (st.a + st'.a), w32 (st.b + st'.b), w32 (st.c + st'.c), w32 (st.d + st'.d),
   w32 (st.e + st'.e), w32 (st.f + st'.f), w32 (st.g + st'.g), w32 (st.h + st'.h)⟩

/-- Big-endian grouping of bytes into 32-bit words. -/
def bytesToWords : List ℕ → List ℕ
  | b0 :: b1 :: b2 :: b3 :: rest =>
    (((b0 * 256 + b1) * 256 + b2) * 256 + b3) :: bytesToWords rest
  | _ => []

/-- Fold all 16-word blocks into the state (fuel-driven for structural
recursion; the fuel is always sufficient at call sites). -/
def shaBlocksGo : ℕ → List ℕ → Sha256State → Sha256State
  | 0, _, st => st
  | fuel + 1, ws, st =>
    match ws with
    | [] => st
    | _ => shaBlocksGo fuel (ws.drop 16) (shaBlock st (ws.take 16))

/-- The 8-byte big-endian bit-length trailer. -/
def lenBytes (len : ℕ) : List ℕ :=
  let b := 8 * len
  [b / 2 ^ 56 % 256, b / 2 ^ 48 % 256, b / 2 ^ 40 % 256, b / 2 ^ 32 % 256,
   b / 2 ^ 24 % 256, b / 2 ^ 16 % 256, b / 2 ^ 8 % 256, b % 256]

/-- FIPS 180-4 padding: `0x80`, zeros to 56 mod 64, 8-byte bit length. -/
def sha256Pad (msg : List ℕ) : List ℕ :=
  msg ++ 128 :: List.replicate ((119 - msg.length % 64) % 64) 0 ++ lenBytes msg.length

/-- The SHA-256 initialization vector. -/
def sha256Init : Sha256State :=
  ⟨1779033703, 3144134277, 1013904242, 2773480762,
   1359893119, 2600822924, 528734635, 1541459225⟩

/-- Big-endian bytes of one 32-bit word. -/
def word2bytes (w : ℕ) : List ℕ :=
  [w / 2 ^ 24 % 256, w / 2 ^ 16 % 256, w / 2 ^ 8 % 256, w % 256]

/-- SHA-256 of a byte string, as 32 digest bytes. -/
def sha256 (msg : List ℕ) : List ℕ :=
  let ws := bytesToWords (sha256Pad msg)
  let st := shaBlocksGo ws.length ws sha256Init
  word2bytes st.a ++ word2bytes st.b ++ word2bytes st.c ++ word2bytes st.d ++
    word2bytes st.e ++ word2bytes st.f ++ word2bytes st.g ++ word2bytes st.h

/-- Lowercase hex digit (ASCII code). -/
def hexDigit (d : ℕ) : ℕ := if d < 10 then 48 + d else 87 + d

/-- Two lowercase hex chars of a byte (node `digest('hex')`). -/
def byteToHex (b : ℕ) : List ℕ := [hexDigit (b / 16), hexDigit (b % 16)]

/-- Hex string of a byte string. -/
def bytesToHex (bs : List ℕ) : List ℕ := (bs.map byteToHex).flatten

/-- The digest as a big-endian number (JS `BigInt('0x' + hash)`). -/
def sha256Nat (msg : List ℕ) : ℕ :=
  (sha256 msg).foldl (fun acc b => acc * 256 + b) 0

/-- Decimal digit string of a number (fuel-driven; `decDigits` below). -/
def decDigitsGo : ℕ → ℕ → List ℕ
  | 0, _ => []
  | fuel + 1, n =>
    if n < 10 then [48 + n] else decDigitsGo fuel (n / 10) ++ [48 + n % 10]

/-- Decimal digit string of a number (JS `${n}` / `BigInt.toString()`). -/
def decDigits (n : ℕ) : List ℕ := decDigitsGo (n + 1) n

/-- Lowercase hex string of a number (fuel-driven; `hexDigits` below). -/
def hexDigitsGo : ℕ → ℕ → List ℕ
  | 0, _ => []
  | fuel + 1, n =>
    if n < 16 then [hexDigit n] else hexDigitsGo fuel (n / 16) ++ [hexDigit (n % 16)]

/-- Lowercase hex string of a number (JS `BigInt.toString(16)`). -/
def hexDigits (n : ℕ) : List ℕ := hexDigitsGo (n + 1) n

/-- Value of one hex character, `none` for a non-hex character. -/
def hexVal (c : ℕ) : Option ℕ :=
  if 48 ≤ c ∧ c ≤ 57 then some (c - 48)
  else if 97 ≤ c ∧ c ≤ 102 then some (c - 87)
  else if 65 ≤ c ∧ c ≤ 70 then some (c - 55)
  else none

/-- Fuel-free accumulator for `parseHex`. -/
def parseHexGo : List ℕ → ℕ → Option ℕ
  | [], acc => some acc
  | c :: cs, acc =>
    match hexVal c with
    | none => none
    | some d => parseHexGo cs (acc * 16 + d)

/-- JS `BigInt('0x' + s)`: `none` models the thrown `SyntaxError` on an
empty or non-hex string. -/
def parseHex (s : List ℕ) : Option ℕ :=
  if s.isEmpty then none else parseHexGo s 0

/-- Accumulator for `parseDec`. -/
def parseDecGo : List ℕ → ℕ → Option ℕ
  | [], acc => some acc
  | c :: cs, acc =>
    if 48 ≤ c ∧ c ≤ 57 then parseDecGo cs (acc * 10 + (c - 48))
    else none

/-- JS `BigInt(s)` on a decimal string (`BigInt('')` is `0n`; a non-digit
character throws, modeled by `none`). -/
def parseDec (s : List ℕ) : Option ℕ := parseDecGo s 0

/-! ### Mixnet shuffle engine (`src/services/mixnets.js`) -/

/-- An encrypted vote as the mixnet sees it (only the `ciphertext` string
field is read or written by the cited code). -/
structure MixVote where
  ciphertext : List ℕ
  deriving DecidableEq

/-- `multiplyWithRandomness(ciphertext, randomness)`: despite its name, the
source replaces the ciphertext with
`sha256(ciphertext + randomness).digest('hex')`. -/
def multiplyWithRandomness (ciphertext randomness : List ℕ) : List ℕ :=
  bytesToHex (sha256 (ciphertext ++ randomness))

/-- `rerandomize(encryptedVote)` with its fresh 64-hex-char `randomFactor`
passed explicitly. -/
def rerandomize (v : MixVote) (randomFactor : List ℕ) : MixVote :=
  ⟨multiplyWithRandomness v.ciphertext randomFactor⟩

/-- One `performShuffle` round: apply the permutation
(`shuffled[i] = votes[permutation[i]]`), then re-randomize each vote with
its drawn factor. -/
def performShuffleVotes (votes : List MixVote) (perm : List ℕ)
    (factors : List (List ℕ)) : List MixVote :=
  (perm.map fun j => votes.getD j ⟨[]⟩).zipWith rerandomize factors

/-- `shuffleVotes`: chain the rounds (the source runs `shuffleRounds = 3`,
so callers pass a three-element round list). -/
def shuffleVotesRounds (votes : List MixVote) :
    List (List ℕ × List (List ℕ)) → List MixVote
  | [] => votes
  | (p, fs) :: rounds => shuffleVotesRounds (performShuffleVotes votes p fs) rounds

/-- Decrypting a ciphertext *string* as the tally path would:
`BigInt(ciphertext)` then Paillier decryption (`none` models the JS throw on
a non-decimal string). -/
def decryptStr (s : List ℕ) (sk : PaillierPriv) : Option ℕ :=
  (parseDec s).map fun c => decrypt c sk

/-- `ShuffleProof` as emitted by `generateShuffleProof` (timestamp omitted:
nothing reads it). -/
structure ShuffleProof where
  round : ℕ
  commitment : List ℕ
  nodeId : List ℕ
  verified : Bool
  deriving DecidableEq

/-- Result shape of `verifyShuffleProof`: either
`{isValid: false, reason: 'Vote count mismatch'}` or
`{isValid: true, commitment, verified}`. -/
inductive ShuffleVerdict where
  | countMismatch
  | valid (commitment : List ℕ) (verified : Bool)
  deriving DecidableEq

/-- The `isValid` field of the result. -/
def ShuffleVerdict.isValid : ShuffleVerdict → Bool
  | .countMismatch => false
  | .valid _ _ => true

/-- JSON encoding of a string (the ciphertext strings fed to the hash are
alphanumeric, so no escaping arises). -/
def jsonString (s : List ℕ) : List ℕ := 34 :: s ++ [34]

/-- JSON encoding of a string array. -/
def jsonStrArray (xs : List (List ℕ)) : List ℕ :=
  91 :: List.intercalate [44] (xs.map jsonString) ++ [93]

/-- `JSON.stringify({originalVotes, shuffledVotes})`: the object literal
`{"originalVotes":[…],"shuffledVotes":[…]}` as bytes. -/
def shuffleCommitmentInput (originalVotes shuffledVotes : List (List ℕ)) : List ℕ :=
  123 :: 34 :: [111, 114, 105, 103, 105, 110, 97, 108, 86, 111, 116, 101, 115] ++
    [34, 58] ++ jsonStrArray originalVotes ++
    [44, 34] ++ [115, 104, 117, 102, 102, 108, 101, 100, 86, 111, 116, 101, 115] ++
    [34, 58] ++ jsonStrArray shuffledVotes ++ [125]

/-- The commitment `verifyShuffleProof` recomputes (and, per claim C7, then
discards): the hash of `{originalVotes, shuffledVotes}` without the
permutation. -/
def expectedShuffleCommitment (originalVotes shuffledVotes : List (List ℕ)) : List ℕ :=
  bytesToHex (sha256 (shuffleCommitmentInput originalVotes shuffledVotes))

/-- `verifyShuffleProof(proof, originalVotes, shuffledVotes)`: rejects on a
length mismatch; otherwise returns `isValid: true` unconditionally.  The
source computes `expectedShuffleCommitment` into a local that is never read
(dead code, it cannot throw on string inputs), so the result does not depend
on it. -/
def verifyShuffleProof (proof : ShuffleProof)
    (originalVotes shuffledVotes : List (List ℕ)) : ShuffleVerdict :=
  if originalVotes.length ≠ shuffledVotes.length then .countMismatch
  else .valid proof.commitment proof.verified

/-! ### Zero-knowledge proof subsystem (`src/services/zeroKnowledgeProof.js`)

The `@noble/secp256k1` group is cyclic of prime order `n` with generator
`BASE`, and its point encoding is injective; the claims only ever compare
group elements (or their encodings) for equality, so the group is modeled by
the isomorphic `ℤ/nℤ` written additively: `pointBaseMul s` stands for
`BASE.multiply(s)` and `pointToHex` for the (injective) `toHex()`. -/

/-- The order of the secp256k1 group (`curve.CURVE.n`). -/
def secpN : ℕ :=
  115792089237316195423570985008687907852837564279074904382605163141518161494337

/-- Abstract curve point (see the section comment). -/
abbrev CurvePt := ZMod secpN

/-- `BASE.multiply(s)` (callers guarantee `0 < s < n`; the library throws
outside that range, which each call site models explicitly). -/
def pointBaseMul (s : ℕ) : CurvePt := (s : ZMod secpN)

/-- The injective point encoding standing for `Point.toHex()`. -/
def pointToHex (P : CurvePt) : List ℕ := decDigits P.val

/-- `Point.fromHex`: decode an encoding produced by `pointToHex`; `none`
models the throw on a malformed encoding. -/
def pointFromHex (s : List ℕ) : Option CurvePt :=
  match parseDec s with
  | none => none
  | some v => if v < secpN then some ((v : ZMod secpN)) else none

/-- The `type` tag of a sigma-protocol branch. -/
inductive SigmaTag where
  | real
  | simulated
  deriving DecidableEq

/-- One branch of the disjunctive proof, `{candidateIndex, a, (c,) z, type}`
(a `real` branch carries no `c`; its `c` field is `[]` here and is never
read by the verifier). -/
structure SigmaProof where
  candidateIndex : ℕ
  a : List ℕ
  c : List ℕ
  z : List ℕ
  tag : SigmaTag
  deriving DecidableEq

/-- `verifySigmaProof(sigmaProof, commitment)`: parse `a`; for a `real`
branch check `g^z = a` (the library's `multiply` throws for `z = 0` or
`z ≥ n`, caught to `false`); for a `simulated` branch parse `c` and `z` and
then `return true; // Simplified for demo` — no equation is checked.  The
`commitment` parameter is never used. -/
def verifySigmaProof (sp : SigmaProof) (commitment : CurvePt) : Bool :=
  match pointFromHex sp.a with
  | none => false
  | some a =>
    match sp.tag with
    | .real =>
      match parseHex sp.z with
      | none => false
      | some z =>
        if z = 0 ∨ secpN ≤ z then false
        else pointBaseMul z == a
    | .simulated =>
      match parseHex sp.c, parseHex sp.z with
      | some _, some _ => true
      | _, _ => false

/-- `generateChallenge(proofs)`: SHA-256 over the concatenation of the `a`
encodings, as a hex string. -/
def generateChallenge (proofs : List SigmaProof) : List ℕ :=
  bytesToHex (sha256 (proofs.map SigmaProof.a).flatten)

/-- A `ProofBundle`: the branch list plus the Fiat–Shamir challenge. -/
structure ProofBundle where
  proofs : List SigmaProof
  challenge : List ℕ
  deriving DecidableEq

/-- Result of `verifyProof`, mirroring `{isValid, reason?}`. -/
inductive VerifyOutcome where
  | ok
  | invalidProofCount
  | invalidSigma (candidateIndex : ℕ)
  | invalidChallenge
  deriving DecidableEq

/-- The `isValid` field. -/
def VerifyOutcome.isValid : VerifyOutcome → Bool
  | .ok => true
  | _ => false

/-- `verifyProof(proof, commitment, candidates)`: branch count check, then
every branch through `verifySigmaProof` (first failure wins), then the
recomputed aggregate challenge. -/
def verifyProof (bundle : ProofBundle) (commitment : CurvePt)
    (candidates : List (List ℕ)) : VerifyOutcome :=
  if bundle.proofs.length ≠ candidates.length then .invalidProofCount
  else
    match bundle.proofs.find? (fun sp => ! verifySigmaProof sp commitment) with
    | some sp => .invalidSigma sp.candidateIndex
    | none =>
      if generateChallenge bundle.proofs ≠ bundle.challenge then .invalidChallenge
      else .ok

/-- Modelled from the spec (§4.2 verification): the standard OR-proof
verification equation for a simulated branch, `g^z = a · C^c`, relating the
branch's `(a, c, z)` to the commitment — the check the claim says
`verifyProof` performs. -/
def specSimulatedCheck (sp : SigmaProof) (commitment : CurvePt) : Bool :=
  match pointFromHex sp.a, parseHex sp.z, parseHex sp.c with
  | some a, some z, some c => pointBaseMul z == a + (c : ZMod secpN) * commitment
  | _, _, _ => false

/-! ### Nullifiers -/

/-- The companion proof of a nullifier,
`{commitment, response, randomnessUsed}`. -/
structure NullifierProofData where
  commitment : List ℕ
  response : List ℕ
  randomnessUsed : List ℕ
  deriving DecidableEq

/-- A nullifier value with its proof. -/
structure NullifierData where
  nullifier : List ℕ
  proof : NullifierProofData
  deriving DecidableEq

/-- The scalar `generateNullifier` hashes: SHA-256 of
`` `${userId}:${electionId}:${randomness}:${Date.now()}` `` mod the curve
order — note the timestamp component. -/
def nullifierScalar (userId electionId randomness : List ℕ) (timestamp : ℕ) : ℕ :=
  sha256Nat (userId ++ [58] ++ electionId ++ [58] ++ randomness ++ [58] ++
    decDigits timestamp) % secpN

/-- `generateNullifierProof(scalar, randomness)` with the fresh 32 random
bytes passed as `rBytes`. -/
def generateNullifierProof (scalar : ℕ) (randomness : List ℕ) (rBytes : ℕ) :
    NullifierProofData :=
  let rScalar := rBytes % secpN
  let randomnessScalar := sha256Nat randomness % secpN
  ⟨hexDigits rScalar, hexDigits (rScalar + scalar * randomnessScalar), randomness⟩

/-- `generateNullifier(userId, electionId, randomness)` with the hidden
inputs (`Date.now()` and the proof nonce bytes) passed explicitly; `none`
models the library throw on the (astronomically improbable) zero scalar. -/
def generateNullifier (userId electionId randomness : List ℕ)
    (timestamp rBytes : ℕ) : Option NullifierData :=
  let scalar := nullifierScalar userId electionId randomness timestamp
  if scalar = 0 then none
  else some ⟨pointToHex (pointBaseMul scalar),
    generateNullifierProof scalar randomness rBytes⟩

/-- The scalar `verifyNullifierProof` recomputes: SHA-256 of
`` `${userId}:${electionId}:${proof.randomnessUsed}` `` mod the curve order —
with no timestamp component. -/
def verifyNullifierScalar (userId electionId randomnessUsed : List ℕ) : ℕ :=
  sha256Nat (userId ++ [58] ++ electionId ++ [58] ++ randomnessUsed) % secpN

/-- `verifyNullifierProof(nullifierData, userId, electionId)`: recompute the
scalar from the three-component pre-image and compare `g^s`'s encoding with
the stored nullifier; the proof's `commitment`/`response` are never read;
`multiply(0)` throws and is caught to `false`. -/
def verifyNullifierProof (d : NullifierData) (userId electionId : List ℕ) : Bool :=
  let s := verifyNullifierScalar userId electionId d.proof.randomnessUsed
  if s = 0 then false
  else pointToHex (pointBaseMul s) == d.nullifier

/-! ### Threshold decryption state and paths -/

/-- The `privateKeyShares` record held by a `HomomorphicEncryption`
instance. -/
structure PrivateKeyShares where
  shares : List KeyShare
  mu : ℕ
  n : ℕ
  nsq : ℕ
  thresholdN : ℕ
  thresholdK : ℕ
  deriving DecidableEq

/-- The engine key state read by `thresholdDecrypt`. -/
structure HEState where
  privateKeyShares : Option PrivateKeyShares
  privateKey : Option PaillierPriv
  deriving DecidableEq

/-- Errors thrown by the threshold-decryption paths: the
`Private key shares not available…`, `Insufficient shares: need …, have …`
and `No valid decryption keys available` exceptions. -/
inductive ThDecError where
  | sharesUnavailable
  | insufficientShares (need got : ℕ)
  | noKeys
  deriving DecidableEq

/-- `performThresholdDecryption(ciphertext, threshold)`: takes the first
`threshold` shares, errors with the explicit deficit if that leaves fewer
than `threshold`, otherwise reconstructs `λ` by Lagrange interpolation and
applies the direct-decryption formula with it. -/
def performThresholdDecryption (st : HEState) (c : ℕ) (threshold : ℕ) :
    Except ThDecError ℕ :=
  match st.privateKeyShares with
  | none => .error .sharesUnavailable
  | some pks =>
    let activeShares := pks.shares.take threshold
    if activeShares.length < threshold then
      .error (.insufficientShares threshold activeShares.length)
    else
      let reconstructedLambda := (reconstructSecret activeShares (pks.n : ℤ)).toNat
      .ok (L (c ^ reconstructedLambda % pks.nsq) pks.n * pks.mu % pks.n)

/-- `thresholdDecrypt(ciphertext, threshold)`: the threshold path runs only
when at least `threshold` shares are loaded; otherwise the engine falls back
to plain single-key decryption when a full private key is present, and only
fails (with the no-keys error) when it is not. -/
def thresholdDecrypt (st : HEState) (c : ℕ) (threshold : ℕ) :
    Except ThDecError ℕ :=
  match st.privateKeyShares with
  | some pks =>
    if threshold ≤ pks.shares.length then performThresholdDecryption st c threshold
    else
      match st.privateKey with
      | some sk => .ok (decrypt c sk)
      | none => .error .noKeys
  | none =>
    match st.privateKey with
    | some sk => .ok (decrypt c sk)
    | none => .error .noKeys

end Voting

namespace Voting

/-! ### Helper lemmas for the encrypt randomness loop -/

theorem drawRandomR_spec {n : ℕ} {entropy : List ℕ} {r : ℕ}
    (h : drawRandomR n entropy = .ok r) :
    Nat.gcd r n = 1 ∧ 2 ≤ r ∧ ∃ b, r = b % (n - 2) + 2 := by
  induction entropy with
  | nil => simp [drawRandomR] at h
  | cons b bs ih =>
    by_cases hg : Nat.gcd (b % (n - 2) + 2) n = 1
    · simp only [drawRandomR, hg, if_pos] at h
      injection h with hr
      exact ⟨hr ▸ hg, hr ▸ Nat.le_add_left 2 _, ⟨b, hr.symm⟩⟩
    · simp only [drawRandomR, hg, if_neg, not_false_iff] at h
      exact ih h

/-- When `n > 2`, every value produced by the randomness loop lies in
`[2, n−1]`. -/
theorem drawRandomR_range {n : ℕ} (hn : 2 < n) {entropy : List ℕ} {r : ℕ}
    (h : drawRandomR n entropy = .ok r) : 2 ≤ r ∧ r ≤ n - 1 := by
  obtain ⟨-, h2, b, hb⟩ := drawRandomR_spec h
  refine ⟨h2, ?_⟩
  have hlt : b % (n - 2) < n - 2 := Nat.mod_lt _ (by omega)
  omega

/-! ### Claim C8: successful encryption returns a coprime blinding factor in
range and the Paillier ciphertext -/

/-- C8: whenever `encrypt(v, publicKey)` returns successfully, the returned
randomness `r` satisfies `2 ≤ r ≤ n−1` and `gcd(r, n) = 1`, and the returned
ciphertext equals `g^v · r^n mod n²`. -/
theorem encrypt_ok_spec (v : ℕ) (pk : PaillierPub) (entropy : List ℕ)
    (res : EncResult) (h : encrypt v pk entropy = .ok res) :
    2 ≤ res.randomness ∧ res.randomness ≤ pk.n - 1 ∧
      Nat.gcd res.randomness pk.n = 1 ∧
      res.ciphertext = pk.g ^ v * res.randomness ^ pk.n % pk.nsq := by
  unfold encrypt at h
  by_cases hn : pk.n ≤ 100
  · simp [hn] at h
  · simp only [hn, if_false] at h
    rcases hdraw : drawRandomR pk.n entropy with e | r
    · rw [hdraw] at h; cases h
    · rw [hdraw] at h
      cases h
      obtain ⟨hg, -, -⟩ := drawRandomR_spec hdraw
      obtain ⟨h2, hlt⟩ := drawRandomR_range (by omega) hdraw
      exact ⟨h2, hlt, hg, (Nat.mul_mod _ _ _).symm⟩

/-- Witness for C8 at a concrete key (`p = 11`, `q = 13`, so `n = 143`),
vote `1`, and a one-element entropy stream. -/
theorem encrypt_ok_spec_witness :
    encrypt 1 ⟨143, 144, 20449⟩ [0] = .ok ⟨5376, 2⟩ ∧
      (2 ≤ 2 ∧ 2 ≤ 143 - 1 ∧ Nat.gcd 2 143 = 1 ∧
        5376 = 144 ^ 1 * 2 ^ 143 % 20449) := by
  refine ⟨by rfl, encrypt_ok_spec 1 ⟨143, 144, 20449⟩ [0] ⟨5376, 2⟩ (by rfl)⟩

/-! ### Claim C9: the corrupted-key guard -/

/-- C9: for every vote value, calling `encrypt` with a public key whose
modulus satisfies `n ≤ 100` fails with the invalid-key error, before any
randomness is consumed (the result does not depend on the entropy stream). -/
theorem encrypt_small_key_fails (v : ℕ) (pk : PaillierPub) (entropy : List ℕ)
    (hn : pk.n ≤ 100) : encrypt v pk entropy = .error .invalidKey := by
  simp [encrypt, hn]

/-- Witness for C9 at a concrete corrupted key (`n = 15`). -/
theorem encrypt_small_key_fails_witness :
    encrypt 3 ⟨15, 16, 225⟩ [7, 8, 9] = .error .invalidKey :=
  encrypt_small_key_fails 3 ⟨15, 16, 225⟩ [7, 8, 9] (by decide)

/-! ### Paillier correctness toolbox (for claim C1) -/

/-- The modeled `modInv` returns a genuine modular inverse whenever the
library call would have succeeded (`gcd(a, n) = 1`). -/
theorem modInvNat_spec {a n : ℕ} (hn : 0 < n) (h : Nat.gcd a n = 1) :
    a * modInvNat a n ≡ 1 [MOD n] := by
  rcases Nat.lt_or_ge n 2 with h2 | h2
  · obtain rfl : n = 1 := by omega
    exact Nat.modEq_one
  · haveI : NeZero n := ⟨by omega⟩
    have hu : IsUnit ((a : ZMod n)) := (ZMod.isUnit_iff_coprime a n).mpr h
    have hblt : ((a : ZMod n)⁻¹).val < n := ZMod.val_lt _
    have hprop : a * ((a : ZMod n)⁻¹).val % n = 1 := by
      have h1 : ((a * ((a : ZMod n)⁻¹).val : ℕ) : ZMod n) = ((1 : ℕ) : ZMod n) := by
        push_cast
        rw [ZMod.natCast_rightInverse _]
        exact ZMod.mul_inv_of_unit _ hu
      have h2' : a * ((a : ZMod n)⁻¹).val ≡ 1 [MOD n] :=
        (ZMod.natCast_eq_natCast_iff _ _ _).mp h1
      have h3 : a * ((a : ZMod n)⁻¹).val % n = 1 % n := h2'
      rwa [Nat.mod_eq_of_lt (show 1 < n by omega)] at h3
    obtain ⟨c, hfind⟩ : ∃ c, (List.range n).find? (fun b => a * b % n = 1) = some c := by
      rw [← Option.isSome_iff_exists, List.find?_isSome]
      exact ⟨((a : ZMod n)⁻¹).val, List.mem_range.mpr hblt, by simp [hprop]⟩
    have hc : a * c % n = 1 := by simpa using List.find?_some hfind
    show a * modInvNat a n % n = 1 % n
    rw [modInvNat, hfind, Option.getD_some, hc, Nat.mod_eq_of_lt (by omega)]

/-- Binomial fact for `g = n + 1`: `(n+1)^t ≡ 1 + t·n (mod n²)`. -/
theorem pow_one_add_mul (n t : ℕ) : (n + 1) ^ t ≡ 1 + t * n [MOD n * n] := by
  induction t with
  | zero => simpa using Nat.ModEq.refl 1
  | succ t ih =>
    calc (n + 1) ^ (t + 1) = (n + 1) ^ t * (n + 1) := by ring
      _ ≡ (1 + t * n) * (n + 1) [MOD n * n] := ih.mul_right _
      _ = (1 + (t + 1) * n) + t * (n * n) := by ring
      _ ≡ (1 + (t + 1) * n) + 0 [MOD n * n] :=
          Nat.ModEq.add_left _ (Nat.modEq_zero_iff_dvd.mpr ⟨t, by ring⟩)
      _ = 1 + (t + 1) * n := by ring

/-- Reduction of `1 + t·n` modulo `n²`. -/
theorem one_add_mul_mod_sq {n : ℕ} (hn : 2 ≤ n) (t : ℕ) :
    (1 + t * n) % (n * n) = 1 + t % n * n := by
  have hdm : t = n * (t / n) + t % n := (Nat.div_add_mod t n).symm
  have hrw : 1 + t * n = 1 + t % n * n + t / n * (n * n) := by
    conv_lhs => rw [hdm]
    ring
  have hlt : 1 + t % n * n < n * n := by
    have h1 : t % n ≤ n - 1 := by
      have := Nat.mod_lt t (show 0 < n by omega)
      omega
    have h2 : t % n * n ≤ (n - 1) * n := Nat.mul_le_mul_right n h1
    have h3 : (n - 1) * n = n * n - n := by rw [Nat.sub_mul, one_mul]
    have h4 : n ≤ n * n := Nat.le_mul_of_pos_left n (by omega)
    omega
  rw [hrw, Nat.add_mul_mod_self_right, Nat.mod_eq_of_lt hlt]

/-- The `L`-extraction used by both key generation and decryption:
`L((n+1)^t mod n², n) = t mod n`. -/
theorem L_of_g_pow {n : ℕ} (hn : 2 ≤ n) (t : ℕ) :
    L ((n + 1) ^ t % (n * n)) n = t % n := by
  have h1 : (n + 1) ^ t % (n * n) = (1 + t * n) % (n * n) := pow_one_add_mul n t
  rw [h1, one_add_mul_mod_sq hn, L, Nat.add_sub_cancel_left,
    Nat.mul_div_cancel _ (show 0 < n by omega)]

/-- Carmichael-style fact for Paillier: if `gcd(x, pq) = 1` for distinct
primes `p, q`, then `x^(pq·lcm(p−1, q−1)) ≡ 1 (mod (pq)²)`. -/
theorem pow_n_lam_eq_one {p q x : ℕ} (hp : p.Prime) (hq : q.Prime) (hpq : p ≠ q)
    (hx : Nat.Coprime x (p * q)) :
    x ^ (p * q * Nat.lcm (p - 1) (q - 1)) ≡ 1 [MOD p * q * (p * q)] := by
  have hmodp : x ^ (p * q * Nat.lcm (p - 1) (q - 1)) ≡ 1 [MOD p ^ 2] := by
    obtain ⟨t, ht⟩ := Nat.dvd_lcm_left (p - 1) (q - 1)
    have hco : Nat.Coprime x (p ^ 2) :=
      (Nat.Coprime.coprime_dvd_right ⟨q, rfl⟩ hx).pow_right 2
    have htot : x ^ Nat.totient (p ^ 2) ≡ 1 [MOD p ^ 2] := Nat.ModEq.pow_totient hco
    have htoteq : Nat.totient (p ^ 2) = p * (p - 1) := by
      rw [Nat.totient_prime_pow hp (by omega)]; ring
    have hE : p * q * Nat.lcm (p - 1) (q - 1) = p * (p - 1) * (q * t) := by
      rw [ht]; ring
    calc x ^ (p * q * Nat.lcm (p - 1) (q - 1))
        = (x ^ (p * (p - 1))) ^ (q * t) := by rw [← pow_mul, hE]
      _ ≡ 1 ^ (q * t) [MOD p ^ 2] := (htoteq ▸ htot).pow _
      _ = 1 := one_pow _
  have hmodq : x ^ (p * q * Nat.lcm (p - 1) (q - 1)) ≡ 1 [MOD q ^ 2] := by
    obtain ⟨t, ht⟩ := Nat.dvd_lcm_right (p - 1) (q - 1)
    have hco : Nat.Coprime x (q ^ 2) :=
      (Nat.Coprime.coprime_dvd_right ⟨p, mul_comm p q⟩ hx).pow_right 2
    have htot : x ^ Nat.totient (q ^ 2) ≡ 1 [MOD q ^ 2] := Nat.ModEq.pow_totient hco
    have htoteq : Nat.totient (q ^ 2) = q * (q - 1) := by
      rw [Nat.totient_prime_pow hq (by omega)]; ring
    have hE : p * q * Nat.lcm (p - 1) (q - 1) = q * (q - 1) * (p * t) := by
      rw [ht]; ring
    calc x ^ (p * q * Nat.lcm (p - 1) (q - 1))
        = (x ^ (q * (q - 1))) ^ (p * t) := by rw [← pow_mul, hE]
      _ ≡ 1 ^ (p * t) [MOD q ^ 2] := (htoteq ▸ htot).pow _
      _ = 1 := one_pow _
  have hcopr : Nat.Coprime (p ^ 2) (q ^ 2) :=
    Nat.Coprime.pow 2 2 ((Nat.coprime_primes hp hq).mpr hpq)
  have hcomb := (Nat.modEq_and_modEq_iff_modEq_mul hcopr).mp ⟨hmodp, hmodq⟩
  have heq : p ^ 2 * q ^ 2 = p * q * (p * q) := by ring
  rwa [heq] at hcomb

/-- `addEncrypted` on a two-element list is congruent to the product of the
two ciphertexts mod `n²`. -/
theorem addEncrypted_pair_congr (pk : PaillierPub) (c1 c2 : ℕ) :
    addEncrypted [c1, c2] pk ≡ c1 * c2 [MOD pk.nsq] := by
  show 1 * c1 % pk.nsq * c2 % pk.nsq ≡ c1 * c2 [MOD pk.nsq]
  calc 1 * c1 % pk.nsq * c2 % pk.nsq
      ≡ 1 * c1 % pk.nsq * c2 [MOD pk.nsq] := Nat.mod_modEq _ _
    _ ≡ 1 * c1 * c2 [MOD pk.nsq] := (Nat.mod_modEq _ _).mul_right c2
    _ = c1 * c2 := by ring

/-- A successful `encrypt` implies the key passed the `n ≤ 100` guard. -/
theorem encrypt_ok_n_gt {v : ℕ} {pk : PaillierPub} {bs : List ℕ} {e : EncResult}
    (h : encrypt v pk bs = .ok e) : 100 < pk.n := by
  by_contra hn
  simp [encrypt, Nat.le_of_not_lt hn] at h

/-- Core Paillier decryption correctness: decrypting any value congruent to
`g^s · R^n mod n²` under keys generated from distinct primes `p, q` (with the
key generation's `modInv` having succeeded, i.e. `gcd(λ, n) = 1`) recovers
`s`, provided `s < n` and `gcd(R, n) = 1`. -/
theorem decrypt_of_congr {p q c R s : ℕ}
    (hp : p.Prime) (hq : q.Prime) (hpq : p ≠ q)
    (hkg : Nat.Coprime (Nat.lcm (p - 1) (q - 1)) (p * q))
    (hR : Nat.Coprime R (p * q))
    (hc : c ≡ (p * q + 1) ^ s * R ^ (p * q) [MOD p * q * (p * q)])
    (hs : s < p * q) :
    decrypt c (generateKeysFrom p q).2 = s := by
  have hp2 : 2 ≤ p := hp.two_le
  have hq2 : 2 ≤ q := hq.two_le
  have hn2 : 2 ≤ p * q := le_trans hp2 (Nat.le_mul_of_pos_right p (by omega))
  have hn0 : 0 < p * q := by omega
  set n := p * q with hn
  set lam := Nat.lcm (p - 1) (q - 1) with hlam
  show L (c ^ lam % (n * n)) n * modInvNat (L ((n + 1) ^ lam % (n * n)) n) n % n = s
  have hclam : c ^ lam ≡ 1 + s * lam * n [MOD n * n] := by
    calc c ^ lam ≡ ((n + 1) ^ s * R ^ n) ^ lam [MOD n * n] := hc.pow lam
      _ = (n + 1) ^ (s * lam) * R ^ (n * lam) := by
          rw [mul_pow, ← pow_mul, ← pow_mul]
      _ ≡ (1 + s * lam * n) * 1 [MOD n * n] := by
          refine Nat.ModEq.mul (pow_one_add_mul n (s * lam)) ?_
          have h1 := pow_n_lam_eq_one hp hq hpq hR
          have h2x : p * q * Nat.lcm (p - 1) (q - 1) = n * lam := rfl
          have h3x : p * q * (p * q) = n * n := rfl
          rwa [h2x, h3x] at h1
      _ = 1 + s * lam * n := by ring
  have hmodc : c ^ lam % (n * n) = (1 + s * lam * n) % (n * n) := hclam
  have hL : L (c ^ lam % (n * n)) n = s * lam % n := by
    rw [hmodc, one_add_mul_mod_sq hn2, L, Nat.add_sub_cancel_left,
      Nat.mul_div_cancel _ hn0]
  have hgl : Nat.gcd (lam % n) n = 1 := by
    rw [← Nat.gcd_rec, Nat.gcd_comm]
    exact hkg
  have hmu := modInvNat_spec hn0 hgl
  rw [hL, L_of_g_pow hn2 lam]
  have hfin : s * lam % n * modInvNat (lam % n) n ≡ s [MOD n] := by
    calc s * lam % n * modInvNat (lam % n) n
        ≡ s * lam * modInvNat (lam % n) n [MOD n] := (Nat.mod_modEq _ _).mul_right _
      _ = s * (lam * modInvNat (lam % n) n) := by ring
      _ ≡ s * (lam % n * modInvNat (lam % n) n) [MOD n] :=
          (((Nat.mod_modEq lam n).symm).mul_right _).mul_left s
      _ ≡ s * 1 [MOD n] := hmu.mul_left s
      _ = s := by ring
  have hfin' : s * lam % n * modInvNat (lam % n) n % n = s % n := hfin
  rw [hfin', Nat.mod_eq_of_lt hs]

/-! ### Claim C1: homomorphic sum of two encrypted votes decrypts to the sum -/

/-- C1: for every Paillier key pair produced by `generateKeys` (distinct
primes, with the key generation's `modInv(L(g^λ mod n²), n)` defined, i.e.
`gcd(λ, n) = 1`) and all votes `v1, v2` with `v1 + v2 < n`, decrypting the
homomorphic sum of their encryptions returns `v1 + v2`. -/
theorem paillier_homomorphic_add_decrypt
    (p q v1 v2 : ℕ) (bs1 bs2 : List ℕ) (e1 e2 : EncResult)
    (hp : p.Prime) (hq : q.Prime) (hpq : p ≠ q)
    (hkg : Nat.Coprime (Nat.lcm (p - 1) (q - 1)) (p * q))
    (h1 : encrypt v1 (generateKeysFrom p q).1 bs1 = .ok e1)
    (h2 : encrypt v2 (generateKeysFrom p q).1 bs2 = .ok e2)
    (hsum : v1 + v2 < p * q) :
    decrypt (addEncrypted [e1.ciphertext, e2.ciphertext] (generateKeysFrom p q).1)
      (generateKeysFrom p q).2 = v1 + v2 := by
  obtain ⟨-, -, hgr1, hc1⟩ := encrypt_ok_spec _ _ _ _ h1
  obtain ⟨-, -, hgr2, hc2⟩ := encrypt_ok_spec _ _ _ _ h2
  refine decrypt_of_congr hp hq hpq hkg
    (R := e1.randomness * e2.randomness) (Nat.Coprime.mul hgr1 hgr2) ?_ hsum
  calc addEncrypted [e1.ciphertext, e2.ciphertext] (generateKeysFrom p q).1
      ≡ e1.ciphertext * e2.ciphertext [MOD p * q * (p * q)] :=
        addEncrypted_pair_congr _ _ _
    _ = ((p * q + 1) ^ v1 * e1.randomness ^ (p * q) % (p * q * (p * q))) *
        ((p * q + 1) ^ v2 * e2.randomness ^ (p * q) % (p * q * (p * q))) := by
        rw [hc1, hc2]; rfl
    _ ≡ ((p * q + 1) ^ v1 * e1.randomness ^ (p * q)) *
        ((p * q + 1) ^ v2 * e2.randomness ^ (p * q)) [MOD p * q * (p * q)] :=
        Nat.ModEq.mul (Nat.mod_modEq _ _) (Nat.mod_modEq _ _)
    _ = (p * q + 1) ^ (v1 + v2) * (e1.randomness * e2.randomness) ^ (p * q) := by
        ring

/-- Witness for C1 with `p = 11`, `q = 13`, votes `1` and `2`: the decrypted
homomorphic sum is `3`. -/
theorem paillier_homomorphic_add_decrypt_witness :
    decrypt (addEncrypted [(⟨5376, 2⟩ : EncResult).ciphertext,
        (⟨17531, 2⟩ : EncResult).ciphertext] (generateKeysFrom 11 13).1)
      (generateKeysFrom 11 13).2 = 1 + 2 :=
  paillier_homomorphic_add_decrypt 11 13 1 2 [0] [0] ⟨5376, 2⟩ ⟨17531, 2⟩
    (by norm_num) (by norm_num) (by decide) (by decide) (by rfl) (by rfl)
    (by decide)

/-! ### Claim C3: behavior of `thresholdDecrypt` below the threshold -/

/-- C3 counterexample: an engine state holding only `2` shares with threshold
`3` but also a full private key.  `thresholdDecrypt` does **not** fail with an
insufficient-shares error: it silently falls back to single-key decryption
and produces a plaintext, refuting the claim that fewer than `k` available
shares always yields the explicit insufficient-shares failure. -/
theorem thresholdDecrypt_fallback_counterexample :
    thresholdDecrypt
      ⟨some ⟨[⟨1, 5⟩, ⟨2, 9⟩], 31, 143, 20449, 5, 3⟩, some ⟨60, 31, 143, 20449⟩⟩
      5 3 = .ok (decrypt 5 ⟨60, 31, 143, 20449⟩) := by
  rfl

/-- C3 amended: when fewer than `threshold` shares are loaded,
`thresholdDecrypt` never runs the threshold path — it returns the single-key
decryption when a full private key is present and the no-keys error
otherwise; the insufficient-shares error naming the deficit is produced only
by `performThresholdDecryption` itself when invoked with fewer than
`threshold` shares. -/
theorem thresholdDecrypt_few_shares (st : HEState) (c k : ℕ)
    (hfew : ∀ pks, st.privateKeyShares = some pks → pks.shares.length < k) :
    (thresholdDecrypt st c k =
      match st.privateKey with
      | some sk => .ok (decrypt c sk)
      | none => .error .noKeys) ∧
    (∀ pks, st.privateKeyShares = some pks →
      performThresholdDecryption st c k =
        .error (.insufficientShares k pks.shares.length)) := by
  constructor
  · match hst : st.privateKeyShares with
    | none => simp [thresholdDecrypt, hst]
    | some pks =>
      have hlt := hfew pks hst
      simp [thresholdDecrypt, hst, Nat.not_le_of_lt hlt]
  · intro pks hst
    have hlt := hfew pks hst
    have htake : (pks.shares.take k).length = pks.shares.length := by
      rw [List.length_take]
      omega
    simp [performThresholdDecryption, hst, htake, hlt]

/-- Witness for the amended C3 at the counterexample state. -/
theorem thresholdDecrypt_few_shares_witness :
    (thresholdDecrypt
        ⟨some ⟨[⟨1, 5⟩, ⟨2, 9⟩], 31, 143, 20449, 5, 3⟩, some ⟨60, 31, 143, 20449⟩⟩
        7 3 = .ok (decrypt 7 ⟨60, 31, 143, 20449⟩)) ∧
      performThresholdDecryption
        ⟨some ⟨[⟨1, 5⟩, ⟨2, 9⟩], 31, 143, 20449, 5, 3⟩, some ⟨60, 31, 143, 20449⟩⟩
        7 3 = .error (.insufficientShares 3 2) := by
  have h := thresholdDecrypt_few_shares
    ⟨some ⟨[⟨1, 5⟩, ⟨2, 9⟩], 31, 143, 20449, 5, 3⟩, some ⟨60, 31, 143, 20449⟩⟩
    7 3 (fun pks hp => by cases hp; decide)
  exact ⟨h.1, h.2 _ rfl⟩

/-! ### Claim C2 toolbox: transporting the JS remainder arithmetic of
`reconstructSecret` into `ZMod m` -/

/-- JS `%` (truncated remainder) disappears under the cast into `ZMod m`. -/
theorem tmod_cast_zmod (m : ℕ) (a : ℤ) :
    ((Int.tmod a (m : ℤ) : ℤ) : ZMod m) = (a : ZMod m) := by
  have h : Int.tmod a (m : ℤ) = a - (m : ℤ) * Int.tdiv a (m : ℤ) := by
    have := Int.tmod_add_tdiv a (m : ℤ)
    omega
  rw [h]
  push_cast
  simp

/-- `Int.emod` (the library's `toZn`) also disappears under the cast. -/
theorem emod_cast_zmod (m : ℕ) (a : ℤ) :
    ((a % (m : ℤ) : ℤ) : ZMod m) = (a : ZMod m) := by
  rw [Int.emod_def]
  push_cast
  simp

/-- In `ZMod m`, a left inverse of a unit is its inverse. -/
theorem zmod_inv_eq_of_mul_eq_one {m : ℕ} {d w : ZMod m}
    (hu : IsUnit d) (h : d * w = 1) : w = d⁻¹ := by
  calc w = 1 * w := (one_mul w).symm
    _ = d⁻¹ * d * w := by rw [ZMod.inv_mul_of_unit d hu]
    _ = d⁻¹ * (d * w) := by ring
    _ = d⁻¹ := by rw [h, mul_one]

/-- The modeled `bigint-crypto-utils` `modInv` on integers produces (the cast
of) a genuine inverse whenever its argument is a unit mod `m`. -/
theorem modInvInt_cast_mul {m : ℕ} (hm : 0 < m) {a : ℤ}
    (hu : IsUnit (a : ZMod m)) :
    (a : ZMod m) * ((modInvInt a (m : ℤ) : ℤ) : ZMod m) = 1 := by
  have hnz : ((m : ℤ)) ≠ 0 := by exact_mod_cast hm.ne'
  have hnn : 0 ≤ a % (m : ℤ) := Int.emod_nonneg a hnz
  have h0 : (((a % (m : ℤ)).toNat : ℕ) : ℤ) = a % (m : ℤ) := Int.toNat_of_nonneg hnn
  have hcast : (((a % (m : ℤ)).toNat : ℕ) : ZMod m) = (a : ZMod m) := by
    calc (((a % (m : ℤ)).toNat : ℕ) : ZMod m)
        = ((((a % (m : ℤ)).toNat : ℕ) : ℤ) : ZMod m) := (Int.cast_natCast _).symm
      _ = ((a % (m : ℤ) : ℤ) : ZMod m) := by rw [h0]
      _ = (a : ZMod m) := emod_cast_zmod m a
  have hu' : IsUnit ((((a % (m : ℤ)).toNat : ℕ)) : ZMod m) := hcast ▸ hu
  have hg : Nat.gcd (a % (m : ℤ)).toNat m = 1 :=
    (ZMod.isUnit_iff_coprime _ m).mp hu'
  have hspec := modInvNat_spec hm hg
  have hz := (ZMod.natCast_eq_natCast_iff _ _ _).mpr hspec
  push_cast at hz
  show (a : ZMod m) *
    ((((modInvNat ((a % (m : ℤ)).toNat) ((m : ℤ)).toNat) : ℕ) : ℤ) : ZMod m) = 1
  rw [Int.toNat_natCast, Int.cast_natCast, ← hcast]
  exact hz

/-- Cast of the numerator fold of `reconstructSecret`. -/
theorem numer_fold_cast (m : ℕ) :
    ∀ (l : List ℕ) (acc : ℤ),
      ((l.foldl (fun (acc : ℤ) (xj : ℕ) => Int.tmod (acc * (-(xj : ℤ))) (m : ℤ)) acc : ℤ) : ZMod m)
        = (acc : ZMod m) * (l.map fun xj => -((xj : ℕ) : ZMod m)).prod
  | [], acc => by simp
  | x :: l, acc => by
    rw [List.foldl_cons, numer_fold_cast m l _, tmod_cast_zmod]
    push_cast
    simp [mul_assoc]

/-- Cast of the denominator fold of `reconstructSecret`. -/
theorem denom_fold_cast (m : ℕ) (xi : ℕ) :
    ∀ (l : List ℕ) (acc : ℤ),
      ((l.foldl (fun (acc : ℤ) (xj : ℕ) => Int.tmod (acc * ((xi : ℤ) - (xj : ℤ))) (m : ℤ)) acc : ℤ) : ZMod m)
        = (acc : ZMod m) * (l.map fun xj => ((xi : ℕ) : ZMod m) - ((xj : ℕ) : ZMod m)).prod
  | [], acc => by simp
  | x :: l, acc => by
    rw [List.foldl_cons, denom_fold_cast m xi l _, tmod_cast_zmod]
    push_cast
    simp [mul_assoc]

/-- Cast of the (interleaved, here separated) numerator accumulator. -/
theorem lagrangeNumer_cast (m : ℕ) (l : List ℕ) :
    ((lagrangeNumer (m : ℤ) l : ℤ) : ZMod m) = (l.map fun xj => -((xj : ℕ) : ZMod m)).prod := by
  rw [lagrangeNumer, numer_fold_cast]
  simp

/-- Cast of the denominator accumulator. -/
theorem lagrangeDenom_cast (m : ℕ) (xi : ℕ) (l : List ℕ) :
    ((lagrangeDenom (m : ℤ) xi l : ℤ) : ZMod m)
      = (l.map fun xj => ((xi : ℕ) : ZMod m) - ((xj : ℕ) : ZMod m)).prod := by
  rw [lagrangeDenom, denom_fold_cast]
  simp

/-- For a share list with pairwise-distinct ids, erasing a share commutes
with projecting to the id list. -/
theorem map_id_erase :
    ∀ (l : List KeyShare), (l.map KeyShare.id).Nodup → ∀ s ∈ l,
      (l.erase s).map KeyShare.id = (l.map KeyShare.id).erase s.id
  | [], _, s, hs => by cases hs
  | t :: l, hnd, s, hs => by
    rcases List.mem_cons.mp hs with rfl | hs'
    · rw [List.erase_cons_head, List.map_cons, List.erase_cons_head]
    · have hnd' : (l.map KeyShare.id).Nodup := (List.nodup_cons.mp (by simpa using hnd)).2
      have htid : t.id ≠ s.id := by
        intro he
        have : t.id ∈ l.map KeyShare.id := he ▸ List.mem_map_of_mem KeyShare.id hs'
        exact (List.nodup_cons.mp (by simpa using hnd)).1 this
      have hts : t ≠ s := fun he => htid (he ▸ rfl)
      rw [List.erase_cons_tail (by simp [beq_iff_eq]; exact fun h => hts h),
        List.map_cons, List.map_cons,
        List.erase_cons_tail (by simp [beq_iff_eq]; exact fun h => htid h),
        map_id_erase l hnd' s hs']

/-- `toFinset` of `List.erase` on a duplicate-free list. -/
theorem nodup_toFinset_erase {α : Type _} [DecidableEq α] {l : List α}
    (hnd : l.Nodup) (a : α) : (l.erase a).toFinset = l.toFinset.erase a := by
  ext b
  simp [List.Nodup.mem_erase_iff hnd, Finset.mem_erase, List.mem_toFinset]

/-- Bridge for the outer loop of `reconstructSecret`: casting the running JS
computation into `ZMod m` yields the accumulated sum of Lagrange terms, with
the `j ≠ i` products taken over the ids of `full.erase s`. -/
theorem reconstructAux_cast {m : ℕ} (hm : 0 < m) (full : List KeyShare)
    (hnd : (full.map KeyShare.id).Nodup)
    (hU : ∀ x ∈ full.map KeyShare.id, ∀ y ∈ full.map KeyShare.id, x ≠ y →
      IsUnit ((x : ZMod m) - (y : ZMod m))) :
    ∀ (rest prev : List KeyShare) (acc : ℤ), full = prev.reverse ++ rest →
      ((reconstructAux (m : ℤ) prev rest acc : ℤ) : ZMod m) =
        (acc : ZMod m) + (rest.map fun s =>
          (s.value : ZMod m) *
            ((((full.erase s).map KeyShare.id).map (fun xj => -((xj : ℕ) : ZMod m))).prod *
             ((((full.erase s).map KeyShare.id).map
                (fun xj => ((s.id : ℕ) : ZMod m) - ((xj : ℕ) : ZMod m))).prod)⁻¹)).sum := by
  intro rest
  induction rest with
  | nil =>
    intro prev acc hsplit
    simp [reconstructAux]
  | cons s rest' ih =>
    intro prev acc hsplit
    have hids : full.map KeyShare.id
        = prev.reverse.map KeyShare.id ++ s.id :: rest'.map KeyShare.id := by
      rw [hsplit, List.map_append, List.map_cons]
    have hndsplit := hids ▸ hnd
    have hdisj := (List.nodup_append.mp hndsplit).2.2
    have hsid_notl : s.id ∉ prev.reverse.map KeyShare.id := fun hmem =>
      hdisj hmem (List.mem_cons_self _ _)
    have hsid_notr : s.id ∉ rest'.map KeyShare.id :=
      (List.nodup_cons.mp (List.nodup_append.mp hndsplit).2.1).1
    have hs_not_prev : s ∉ prev.reverse := fun hmem =>
      hsid_notl (List.mem_map_of_mem KeyShare.id hmem)
    have herase : full.erase s = prev.reverse ++ rest' := by
      rw [hsplit, List.erase_append_right _ hs_not_prev, List.erase_cons_head]
    have hothers : (prev.reverse ++ rest').map KeyShare.id
        = (full.erase s).map KeyShare.id := by rw [herase]
    have hsid_not : s.id ∉ (full.erase s).map KeyShare.id := by
      rw [← hothers, List.map_append]
      intro hmem
      rcases List.mem_append.mp hmem with h | h
      · exact hsid_notl h
      · exact hsid_notr h
    have hsid_mem : s.id ∈ full.map KeyShare.id := by
      rw [hids]
      exact List.mem_append_right _ (List.mem_cons_self _ _)
    -- the denominator for this round is a unit
    have hden_unit : IsUnit ((((full.erase s).map KeyShare.id).map
        (fun xj => ((s.id : ℕ) : ZMod m) - ((xj : ℕ) : ZMod m))).prod) := by
      refine List.prod_isUnit ?_
      intro z hz
      rcases List.mem_map.mp hz with ⟨xj, hxj, rfl⟩
      have hxj_full : xj ∈ full.map KeyShare.id := by
        have hsub : (full.erase s).map KeyShare.id ⊆ full.map KeyShare.id :=
          List.map_subset _ (List.erase_subset ..)
        exact hsub hxj
      have hne : s.id ≠ xj := fun he => hsid_not (he ▸ hxj)
      exact hU s.id hsid_mem xj hxj_full hne
    have hinv : ((modInvInt (lagrangeDenom (m : ℤ) s.id
          ((full.erase s).map KeyShare.id)) (m : ℤ) : ℤ) : ZMod m)
        = ((((full.erase s).map KeyShare.id).map
            (fun xj => ((s.id : ℕ) : ZMod m) - ((xj : ℕ) : ZMod m))).prod)⁻¹ := by
      apply zmod_inv_eq_of_mul_eq_one hden_unit
      have h1 := modInvInt_cast_mul hm (a := lagrangeDenom (m : ℤ) s.id
        ((full.erase s).map KeyShare.id)) ?_
      · rw [← h1, lagrangeDenom_cast]
      · rw [lagrangeDenom_cast]
        exact hden_unit
    have hsplit' : full = (s :: prev).reverse ++ rest' := by
      rw [hsplit, List.reverse_cons, List.append_assoc, List.singleton_append]
    rw [show reconstructAux (m : ℤ) prev (s :: rest') acc
        = reconstructAux (m : ℤ) (s :: prev) rest'
            (Int.tmod (acc + Int.tmod (s.value *
              (Int.tmod (lagrangeNumer (m : ℤ) ((prev.reverse ++ rest').map KeyShare.id) *
                modInvInt (lagrangeDenom (m : ℤ) s.id
                  ((prev.reverse ++ rest').map KeyShare.id)) (m : ℤ)) (m : ℤ)))
              (m : ℤ)) (m : ℤ)) from rfl,
      ih (s :: prev) _ hsplit']
    rw [tmod_cast_zmod]
    push_cast
    rw [tmod_cast_zmod]
    push_cast
    rw [tmod_cast_zmod]
    push_cast
    rw [lagrangeNumer_cast, hothers, hinv, List.map_cons, List.sum_cons]
    ring

/-- Cast of the full `reconstructSecret` computation. -/
theorem reconstructSecret_cast {m : ℕ} (hm : 0 < m) (shares : List KeyShare)
    (hnd : (shares.map KeyShare.id).Nodup)
    (hU : ∀ x ∈ shares.map KeyShare.id, ∀ y ∈ shares.map KeyShare.id, x ≠ y →
      IsUnit ((x : ZMod m) - (y : ZMod m))) :
    ((reconstructSecret shares (m : ℤ) : ℤ) : ZMod m) =
      (shares.map fun s =>
        (s.value : ZMod m) *
          ((((shares.erase s).map KeyShare.id).map (fun xj => -((xj : ℕ) : ZMod m))).prod *
           ((((shares.erase s).map KeyShare.id).map
              (fun xj => ((s.id : ℕ) : ZMod m) - ((xj : ℕ) : ZMod m))).prod)⁻¹)).sum := by
  rw [reconstructSecret, tmod_cast_zmod]
  push_cast
  rw [tmod_cast_zmod]
  have h := reconstructAux_cast hm shares hnd hU shares [] 0 (by simp)
  rw [h]
  simp

/-- Negating the dividend negates the truncated remainder. -/
theorem tmod_neg_left (a b : ℤ) : Int.tmod (-a) b = -Int.tmod a b := by
  rw [Int.tmod_def, Int.tmod_def, Int.neg_tdiv]
  ring

/-- Strict lower bound for the truncated remainder. -/
theorem neg_lt_tmod {b : ℤ} (hb : 0 < b) (a : ℤ) : -b < Int.tmod a b := by
  rcases le_or_lt 0 a with ha | ha
  · have := Int.tmod_nonneg b ha
    omega
  · have h1 : Int.tmod a b = -Int.tmod (-a) b := by
      rw [← tmod_neg_left]
      simp
    have h2 : Int.tmod (-a) b = (-a) % b := Int.tmod_eq_emod (by omega) hb.le
    have h3 : (-a) % b < b := Int.emod_lt_of_pos _ hb
    omega

/-- The final normalization of `reconstructSecret` lands in `[0, modulus)`. -/
theorem reconstructSecret_range {M : ℤ} (hm : 0 < M) (shares : List KeyShare) :
    0 ≤ reconstructSecret shares M ∧ reconstructSecret shares M < M := by
  rw [reconstructSecret]
  have hx1 : -M < Int.tmod (reconstructAux M [] shares 0) M := neg_lt_tmod hm _
  have hnn : 0 ≤ Int.tmod (reconstructAux M [] shares 0) M + M := by omega
  rw [Int.tmod_eq_emod hnn hm.le]
  exact ⟨Int.emod_nonneg _ hm.ne', Int.emod_lt_of_pos _ hm⟩

/-! ### Claim C2 toolbox: the exact Lagrange interpolation identity -/

/-- `polyEvalMod` computes exactly the share polynomial in `ZMod m`
(generalized over the fold's accumulator pair). -/
theorem polyEval_fold_cast (m x : ℕ) :
    ∀ (cs : List ℕ) (y xp : ℕ),
      (((cs.foldl (fun acc c => ((acc.1 + c * acc.2 % m) % m, acc.2 * x % m))
          (y, xp)).1 : ℕ) : ZMod m)
        = (y : ZMod m) + (xp : ZMod m) * evalPoly cs (x : ZMod m)
  | [], y, xp => by simp [evalPoly]
  | c :: cs, y, xp => by
    rw [List.foldl_cons, polyEval_fold_cast m x cs _ _]
    show (((y + c * xp % m) % m : ℕ) : ZMod m) + (((xp * x % m : ℕ)) : ZMod m) * _ = _
    show _ = _ + _ * ((c : ZMod m) + _ * evalPoly cs _)
    simp only [ZMod.natCast_mod, Nat.cast_add, Nat.cast_mul]
    ring

/-- The value stored in a share is the polynomial value mod `m`. -/
theorem polyEvalMod_cast (coeffs : List ℕ) (x m : ℕ) :
    ((polyEvalMod coeffs x m : ℕ) : ZMod m) = evalPoly coeffs (x : ZMod m) := by
  rw [polyEvalMod, polyEval_fold_cast]
  simp

/-- `evalPoly` commutes with ring homomorphisms. -/
theorem evalPoly_hom {R S : Type _} [CommRing R] [CommRing S] (f : R →+* S) :
    ∀ (cs : List ℕ) (z : R), f (evalPoly cs z) = evalPoly cs (f z)
  | [], z => by simp [evalPoly]
  | c :: cs, z => by
    simp [evalPoly, evalPoly_hom f cs z]

/-- `evalPoly` is the evaluation of the monomial-sum polynomial. -/
theorem evalPoly_eval_fin {F : Type _} [CommRing F] :
    ∀ (cs : List ℕ) (z : F),
      (∑ i : Fin cs.length,
        Polynomial.C ((cs.get i : ℕ) : F) * Polynomial.X ^ (i : ℕ)).eval z
        = evalPoly cs z
  | [], z => by simp [evalPoly]
  | c :: cs, z => by
    have hrec := evalPoly_eval_fin cs z
    rw [show evalPoly (c :: cs) z = (c : F) + z * evalPoly cs z from rfl, ← hrec]
    simp only [List.length_cons]
    rw [Fin.sum_univ_succ, Polynomial.eval_add, Polynomial.eval_finset_sum,
      Polynomial.eval_finset_sum, Finset.mul_sum]
    simp only [Polynomial.eval_mul, Polynomial.eval_pow, Polynomial.eval_C,
      Polynomial.eval_X, Fin.val_zero, pow_zero, mul_one, Fin.val_succ,
      List.get_cons_succ, List.get_cons_zero]
    congr 1
    refine Finset.sum_congr rfl fun i _ => ?_
    rw [pow_succ, show (c :: cs).get i.succ = cs.get i from rfl]
    ring

/-- Lagrange interpolation at `0` over `ℚ` for the share polynomial: the
constant term is the `ℓ_i(0)`-weighted sum of the nodal values. -/
theorem lagrange_rat (T : Finset ℕ) (coeffs : List ℕ)
    (hcard : coeffs.length = T.card) :
    (coeffs.headD 0 : ℚ) =
      ∑ x ∈ T, evalPoly coeffs ((x : ℕ) : ℚ) *
        ∏ y ∈ T.erase x, ((((x : ℕ) : ℚ) - ((y : ℕ) : ℚ))⁻¹ * -((y : ℕ) : ℚ)) := by
  classical
  have hdeg0 := Polynomial.degree_sum_fin_lt
    (fun i : Fin coeffs.length => ((coeffs.get i : ℕ) : ℚ))
  have hcastlen : ((coeffs.length : ℕ) : WithBot ℕ) = ((T.card : ℕ) : WithBot ℕ) := by
    exact_mod_cast hcard
  have hdeg : (∑ i : Fin coeffs.length,
      Polynomial.C ((coeffs.get i : ℕ) : ℚ) * Polynomial.X ^ (i : ℕ)).degree
        < ((T.card : ℕ) : WithBot ℕ) := hcastlen ▸ hdeg0
  have hinj : Set.InjOn (fun x : ℕ => (x : ℚ)) T :=
    fun x _ y _ h => Nat.cast_injective h
  have hint := Lagrange.eq_interpolate (v := fun x : ℕ => (x : ℚ))
    (f := ∑ i : Fin coeffs.length,
      Polynomial.C ((coeffs.get i : ℕ) : ℚ) * Polynomial.X ^ (i : ℕ))
    hinj hdeg
  have hev := congrArg (Polynomial.eval 0) hint
  simp only [evalPoly_eval_fin] at hev
  rw [Lagrange.interpolate_apply, Polynomial.eval_finset_sum] at hev
  simp only [Polynomial.eval_mul, Polynomial.eval_C] at hev
  have h0 : evalPoly coeffs ((0 : ℚ)) = (coeffs.headD 0 : ℚ) := by
    cases coeffs <;> simp [evalPoly]
  rw [h0] at hev
  rw [hev]
  refine Finset.sum_congr rfl fun x hx => ?_
  refine congrArg (fun t => evalPoly coeffs ((x : ℕ) : ℚ) * t) ?_
  rw [Lagrange.basis, Polynomial.eval_prod]
  refine Finset.prod_congr rfl fun y hy => ?_
  simp [Lagrange.basisDivisor]

/-- The interpolation identity with denominators cleared (still over `ℚ`). -/
theorem lagrange_rat_cleared (T : Finset ℕ) (coeffs : List ℕ)
    (hcard : coeffs.length = T.card) :
    ∑ x ∈ T, evalPoly coeffs ((x : ℕ) : ℚ) *
        ((∏ y ∈ T.erase x, -((y : ℕ) : ℚ)) *
         ∏ z ∈ T.erase x, ∏ y ∈ T.erase z, (((z : ℕ) : ℚ) - ((y : ℕ) : ℚ)))
      = (coeffs.headD 0 : ℚ) *
        ∏ z ∈ T, ∏ y ∈ T.erase z, (((z : ℕ) : ℚ) - ((y : ℕ) : ℚ)) := by
  classical
  have hq := lagrange_rat T coeffs hcard
  have hDnz : ∀ z ∈ T, (∏ y ∈ T.erase z, (((z : ℕ) : ℚ) - ((y : ℕ) : ℚ))) ≠ 0 := by
    intro z hz
    rw [Finset.prod_ne_zero_iff]
    intro y hy h0
    exact (Finset.mem_erase.mp hy).1 (Nat.cast_injective (sub_eq_zero.mp h0)).symm
  have key : ∀ x ∈ T, evalPoly coeffs ((x : ℕ) : ℚ) *
      ((∏ y ∈ T.erase x, -((y : ℕ) : ℚ)) *
       ∏ z ∈ T.erase x, ∏ y ∈ T.erase z, (((z : ℕ) : ℚ) - ((y : ℕ) : ℚ)))
      = (evalPoly coeffs ((x : ℕ) : ℚ) *
          ∏ y ∈ T.erase x, ((((x : ℕ) : ℚ) - ((y : ℕ) : ℚ))⁻¹ * -((y : ℕ) : ℚ))) *
        ∏ z ∈ T, ∏ y ∈ T.erase z, (((z : ℕ) : ℚ) - ((y : ℕ) : ℚ)) := by
    intro x hx
    rw [Finset.prod_mul_distrib, Finset.prod_inv_distrib,
      ← Finset.mul_prod_erase T _ hx]
    have hne := hDnz x hx
    field_simp
    ring
  rw [Finset.sum_congr rfl key, ← Finset.sum_mul, ← hq]

/-- The cast of `evalPoly` from `ℤ` to `ℚ` at a natural-number node. -/
theorem evalPoly_int_to_rat (cs : List ℕ) (x : ℕ) :
    ((evalPoly cs ((x : ℕ) : ℤ) : ℤ) : ℚ) = evalPoly cs ((x : ℕ) : ℚ) := by
  rw [show ((evalPoly cs ((x : ℕ) : ℤ) : ℤ) : ℚ)
      = (Int.castRingHom ℚ) (evalPoly cs ((x : ℕ) : ℤ)) from rfl, evalPoly_hom]
  norm_num

/-- The cleared interpolation identity descends to `ℤ`. -/
theorem lagrange_int (T : Finset ℕ) (coeffs : List ℕ)
    (hcard : coeffs.length = T.card) :
    ∑ x ∈ T, evalPoly coeffs ((x : ℕ) : ℤ) *
        ((∏ y ∈ T.erase x, -((y : ℕ) : ℤ)) *
         ∏ z ∈ T.erase x, ∏ y ∈ T.erase z, (((z : ℕ) : ℤ) - ((y : ℕ) : ℤ)))
      = (coeffs.headD 0 : ℤ) *
        ∏ z ∈ T, ∏ y ∈ T.erase z, (((z : ℕ) : ℤ) - ((y : ℕ) : ℤ)) := by
  have hq := lagrange_rat_cleared T coeffs hcard
  apply Int.cast_injective (α := ℚ)
  push_cast [evalPoly_int_to_rat]
  push_cast at hq
  exact hq

/-- The cast of `evalPoly` from `ℤ` to `ZMod m` at a natural-number node. -/
theorem evalPoly_int_to_zmod (m : ℕ) (cs : List ℕ) (x : ℕ) :
    ((evalPoly cs ((x : ℕ) : ℤ) : ℤ) : ZMod m) = evalPoly cs ((x : ℕ) : ZMod m) := by
  rw [show ((evalPoly cs ((x : ℕ) : ℤ) : ℤ) : ZMod m)
      = (Int.castRingHom (ZMod m)) (evalPoly cs ((x : ℕ) : ℤ)) from rfl, evalPoly_hom]
  norm_num

/-- The exact Lagrange-at-zero identity in `ZMod m`, assuming all pairwise
node differences are units: the inverse-weighted sum of the polynomial values
recovers the constant term. -/
theorem lagrange_zmod {m : ℕ} (T : Finset ℕ) (coeffs : List ℕ)
    (hcard : coeffs.length = T.card)
    (hU : ∀ x ∈ T, ∀ y ∈ T, x ≠ y →
      IsUnit (((x : ℕ) : ZMod m) - ((y : ℕ) : ZMod m))) :
    ∑ x ∈ T, evalPoly coeffs ((x : ℕ) : ZMod m) *
      ((∏ y ∈ T.erase x, -((y : ℕ) : ZMod m)) *
       (∏ y ∈ T.erase x, (((x : ℕ) : ZMod m) - ((y : ℕ) : ZMod m)))⁻¹)
      = ((coeffs.headD 0 : ℕ) : ZMod m) := by
  classical
  have hz := congrArg (fun t : ℤ => (t : ZMod m)) (lagrange_int T coeffs hcard)
  push_cast [evalPoly_int_to_zmod] at hz
  have hDu : ∀ z ∈ T, IsUnit (∏ y ∈ T.erase z,
      (((z : ℕ) : ZMod m) - ((y : ℕ) : ZMod m))) := by
    intro z hzT
    refine Finset.prod_induction _ IsUnit (fun a b ha hb => ha.mul hb) isUnit_one ?_
    intro y hy
    exact hU z hzT y (Finset.mem_of_mem_erase hy)
      fun he => (Finset.mem_erase.mp hy).1 he.symm
  have hz' := congrArg (fun t => t * ∏ z ∈ T, (∏ y ∈ T.erase z,
    (((z : ℕ) : ZMod m) - ((y : ℕ) : ZMod m)))⁻¹) hz
  simp only at hz'
  have hrhs : ((coeffs.headD 0 : ℕ) : ZMod m) *
        (∏ z ∈ T, ∏ y ∈ T.erase z, (((z : ℕ) : ZMod m) - ((y : ℕ) : ZMod m))) *
        (∏ z ∈ T, (∏ y ∈ T.erase z, (((z : ℕ) : ZMod m) - ((y : ℕ) : ZMod m)))⁻¹)
      = ((coeffs.headD 0 : ℕ) : ZMod m) := by
    rw [mul_assoc, ← Finset.prod_mul_distrib]
    rw [Finset.prod_congr rfl fun z hzT => ZMod.mul_inv_of_unit _ (hDu z hzT)]
    simp
  have hlhs : ∀ x ∈ T, evalPoly coeffs ((x : ℕ) : ZMod m) *
        ((∏ y ∈ T.erase x, -((y : ℕ) : ZMod m)) *
         ∏ z ∈ T.erase x, ∏ y ∈ T.erase z, (((z : ℕ) : ZMod m) - ((y : ℕ) : ZMod m))) *
        (∏ z ∈ T, (∏ y ∈ T.erase z, (((z : ℕ) : ZMod m) - ((y : ℕ) : ZMod m)))⁻¹)
      = evalPoly coeffs ((x : ℕ) : ZMod m) *
        ((∏ y ∈ T.erase x, -((y : ℕ) : ZMod m)) *
         (∏ y ∈ T.erase x, (((x : ℕ) : ZMod m) - ((y : ℕ) : ZMod m)))⁻¹) := by
    intro x hx
    rw [← Finset.mul_prod_erase T
      (fun z => (∏ y ∈ T.erase z, (((z : ℕ) : ZMod m) - ((y : ℕ) : ZMod m)))⁻¹) hx]
    have hcancel : (∏ z ∈ T.erase x, ∏ y ∈ T.erase z,
          (((z : ℕ) : ZMod m) - ((y : ℕ) : ZMod m))) *
        (∏ z ∈ T.erase x, (∏ y ∈ T.erase z,
          (((z : ℕ) : ZMod m) - ((y : ℕ) : ZMod m)))⁻¹) = 1 := by
      rw [← Finset.prod_mul_distrib]
      rw [Finset.prod_congr rfl fun z hzT =>
        ZMod.mul_inv_of_unit _ (hDu z (Finset.mem_of_mem_erase hzT))]
      simp
    calc evalPoly coeffs ((x : ℕ) : ZMod m) *
          ((∏ y ∈ T.erase x, -((y : ℕ) : ZMod m)) *
           ∏ z ∈ T.erase x, ∏ y ∈ T.erase z, (((z : ℕ) : ZMod m) - ((y : ℕ) : ZMod m))) *
          ((∏ y ∈ T.erase x, (((x : ℕ) : ZMod m) - ((y : ℕ) : ZMod m)))⁻¹ *
           ∏ z ∈ T.erase x, (∏ y ∈ T.erase z,
             (((z : ℕ) : ZMod m) - ((y : ℕ) : ZMod m)))⁻¹)
        = evalPoly coeffs ((x : ℕ) : ZMod m) *
          ((∏ y ∈ T.erase x, -((y : ℕ) : ZMod m)) *
           (∏ y ∈ T.erase x, (((x : ℕ) : ZMod m) - ((y : ℕ) : ZMod m)))⁻¹) *
          ((∏ z ∈ T.erase x, ∏ y ∈ T.erase z,
            (((z : ℕ) : ZMod m) - ((y : ℕ) : ZMod m))) *
           (∏ z ∈ T.erase x, (∏ y ∈ T.erase z,
             (((z : ℕ) : ZMod m) - ((y : ℕ) : ZMod m)))⁻¹)) := by ring
      _ = evalPoly coeffs ((x : ℕ) : ZMod m) *
          ((∏ y ∈ T.erase x, -((y : ℕ) : ZMod m)) *
           (∏ y ∈ T.erase x, (((x : ℕ) : ZMod m) - ((y : ℕ) : ZMod m)))⁻¹) := by
          rw [hcancel, mul_one]
  calc ∑ x ∈ T, evalPoly coeffs ((x : ℕ) : ZMod m) *
        ((∏ y ∈ T.erase x, -((y : ℕ) : ZMod m)) *
         (∏ y ∈ T.erase x, (((x : ℕ) : ZMod m) - ((y : ℕ) : ZMod m)))⁻¹)
      = ∑ x ∈ T, evalPoly coeffs ((x : ℕ) : ZMod m) *
        ((∏ y ∈ T.erase x, -((y : ℕ) : ZMod m)) *
         ∏ z ∈ T.erase x, ∏ y ∈ T.erase z, (((z : ℕ) : ZMod m) - ((y : ℕ) : ZMod m))) *
        (∏ z ∈ T, (∏ y ∈ T.erase z, (((z : ℕ) : ZMod m) - ((y : ℕ) : ZMod m)))⁻¹) :=
        (Finset.sum_congr rfl fun x hx => (hlhs x hx).symm)
    _ = (∑ x ∈ T, evalPoly coeffs ((x : ℕ) : ZMod m) *
        ((∏ y ∈ T.erase x, -((y : ℕ) : ZMod m)) *
         ∏ z ∈ T.erase x, ∏ y ∈ T.erase z, (((z : ℕ) : ZMod m) - ((y : ℕ) : ZMod m)))) *
        (∏ z ∈ T, (∏ y ∈ T.erase z, (((z : ℕ) : ZMod m) - ((y : ℕ) : ZMod m)))⁻¹) :=
        (Finset.sum_mul _ _ _).symm
    _ = ((coeffs.headD 0 : ℕ) : ZMod m) := by rw [hz]; exact hrhs

/-! ### Claim C2: threshold reconstruction is exact -/

/-- C2: for threshold parameters `1 ≤ k ≤ nShares`, any secret below the
modulus, and any `k`-element subset `S` of the shares produced by
`generateSecretShares` (with pairwise share-id differences invertible mod the
modulus, the claim's precondition), `reconstructSecret(S, modulus)` returns
exactly the secret — despite the negative intermediate residues of the JS `%`
operator.  Independence from the choice of subset is immediate since every
subset reconstructs the same value `secret`. -/
theorem shamir_reconstruct_exact
    (secret m k nShares : ℕ) (rand : List ℕ) (S : List KeyShare)
    (hm : 0 < m) (hsec : secret < m)
    (hk : 1 ≤ k) (hkn : k ≤ nShares)
    (hclen : (secret :: rand).length = k)
    (hsub : S ⊆ generateSecretShares (secret :: rand) nShares m)
    (hSlen : S.length = k)
    (hnd : (S.map KeyShare.id).Nodup)
    (hU : ∀ x ∈ S.map KeyShare.id, ∀ y ∈ S.map KeyShare.id, x ≠ y →
      IsUnit (((x : ℕ) : ZMod m) - ((y : ℕ) : ZMod m))) :
    reconstructSecret S ((m : ℕ) : ℤ) = ((secret : ℕ) : ℤ) := by
  classical
  have hval : ∀ s ∈ S, s.value = ((polyEvalMod (secret :: rand) s.id m : ℕ) : ℤ) := by
    intro s hs
    obtain ⟨x, hx, rfl⟩ := List.mem_map.mp (hsub hs)
    rfl
  have hcastS := reconstructSecret_cast hm S hnd hU
  have hterm : ∀ s ∈ S, (s.value : ZMod m) *
      ((((S.erase s).map KeyShare.id).map (fun xj => -((xj : ℕ) : ZMod m))).prod *
       ((((S.erase s).map KeyShare.id).map
          (fun xj => ((s.id : ℕ) : ZMod m) - ((xj : ℕ) : ZMod m))).prod)⁻¹)
      = (fun a : KeyShare =>
          lagTermZ m (secret :: rand) (S.map KeyShare.id).toFinset a.id) s := by
    intro s hs
    have hidser : (S.erase s).map KeyShare.id = (S.map KeyShare.id).erase s.id :=
      map_id_erase S hnd s hs
    have hnderase : ((S.map KeyShare.id).erase s.id).Nodup := hnd.erase _
    have htf : ((S.map KeyShare.id).erase s.id).toFinset
        = (S.map KeyShare.id).toFinset.erase s.id := nodup_toFinset_erase hnd s.id
    show _ = lagTermZ m (secret :: rand) (S.map KeyShare.id).toFinset s.id
    rw [lagTermZ, hidser, ← List.prod_toFinset _ hnderase,
      ← List.prod_toFinset _ hnderase, htf, hval s hs, Int.cast_natCast,
      polyEvalMod_cast]
  have hcardT : (secret :: rand).length = (S.map KeyShare.id).toFinset.card := by
    have h1 : (S.map KeyShare.id).toFinset.card = k := by
      rw [List.toFinset_card_of_nodup hnd, List.length_map, hSlen]
    exact hclen.trans h1.symm
  have hUT : ∀ x ∈ (S.map KeyShare.id).toFinset, ∀ y ∈ (S.map KeyShare.id).toFinset,
      x ≠ y → IsUnit (((x : ℕ) : ZMod m) - ((y : ℕ) : ZMod m)) :=
    fun x hx y hy => hU x (List.mem_toFinset.mp hx) y (List.mem_toFinset.mp hy)
  have hfin : ((reconstructSecret S ((m : ℕ) : ℤ) : ℤ) : ZMod m)
      = ((secret : ℕ) : ZMod m) := by
    rw [hcastS, List.map_congr_left hterm,
      show (fun a : KeyShare =>
          lagTermZ m (secret :: rand) (S.map KeyShare.id).toFinset a.id)
        = (lagTermZ m (secret :: rand) (S.map KeyShare.id).toFinset ∘ KeyShare.id)
        from rfl,
      ← List.map_map, ← List.sum_toFinset _ hnd]
    have hwrap : ∑ x ∈ (S.map KeyShare.id).toFinset,
        lagTermZ m (secret :: rand) (S.map KeyShare.id).toFinset x
        = (((secret :: rand).headD 0 : ℕ) : ZMod m) := by
      simp only [lagTermZ]
      exact lagrange_zmod _ _ hcardT hUT
    exact hwrap
  obtain ⟨hr0, hrm⟩ :=
    reconstructSecret_range (M := ((m : ℕ) : ℤ)) (by exact_mod_cast hm) S
  have he : reconstructSecret S ((m : ℕ) : ℤ) ≡ ((secret : ℕ) : ℤ) [ZMOD (m : ℕ)] :=
    (ZMod.intCast_eq_intCast_iff _ _ _).mp (by rw [hfin, Int.cast_natCast])
  have he2 : reconstructSecret S ((m : ℕ) : ℤ) % ((m : ℕ) : ℤ)
      = ((secret : ℕ) : ℤ) % ((m : ℕ) : ℤ) := he
  rwa [Int.emod_eq_of_lt hr0 hrm,
    Int.emod_eq_of_lt (Int.natCast_nonneg _) (by exact_mod_cast hsec)] at he2

/-! ### Validation of the SHA-256 model -/

/-- The SHA-256 model agrees with the FIPS 180-4 test vector for `"abc"`,
so the hash-dependent theorems below evaluate the same function node's
`createHash('sha256')` computes. -/
theorem sha256_model_abc :
    sha256 [97, 98, 99] =
      [186, 120, 22, 191, 143, 1, 207, 234, 65, 65, 64, 222, 93, 174, 34, 35,
       176, 3, 97, 163, 150, 23, 122, 156, 180, 16, 255, 97, 242, 0, 21, 173] := by
  decide

/-- Witness for C2: secret `5`, modulus `7`, threshold `2` of `3` shares with
random coefficient `3` (shares `f(1)=1`, `f(2)=4`, `f(3)=0`); reconstructing
from the 2-subset with ids `{1, 3}` returns exactly `5`. -/
theorem shamir_reconstruct_exact_witness :
    reconstructSecret [⟨1, 1⟩, ⟨3, 0⟩] 7 = 5 :=
  shamir_reconstruct_exact 5 7 2 3 [3] [⟨1, 1⟩, ⟨3, 0⟩]
    (by decide) (by decide) (by decide) (by decide) (by decide)
    (by decide) (by decide) (by decide)
    (fun x hx y hy hne => by
      simp only [List.map_cons, List.map_nil, List.mem_cons,
        List.not_mem_nil, or_false] at hx hy
      rcases hx with rfl | rfl <;> rcases hy with rfl | rfl
      · exact absurd rfl hne
      · exact isUnit_of_mul_eq_one _ 3 (by decide)
      · exact isUnit_of_mul_eq_one _ 4 (by decide)
      · exact absurd rfl hne)

/-! ### Claim C4: the shuffle does not preserve plaintexts (code bug) -/

set_option maxRecDepth 100000 in
/-- C4 (supporting theorem for the code bug): `rerandomize` replaces each
ciphertext with a SHA-256 hex digest (`multiplyWithRandomness` hashes instead
of multiplying), so the shuffle output is not an encryption of anything.
Concretely: for the singleton input `["5376"]` — an encryption of `1` under
the `p = 11, q = 13` key — and any fixed round randomness (identity
permutation, all-zero random factors), the decrypted plaintext list of the
three-round `shuffleVotes` output differs from that of the input: the output
ciphertext is a 64-char hex digest that `BigInt` cannot even parse, while the
input decrypts to `[some 1]`. -/
theorem shuffle_output_not_same_plaintexts :
    ((shuffleVotesRounds [MixVote.mk (decDigits 5376)]
        [([0], [List.replicate 64 48]), ([0], [List.replicate 64 48]),
         ([0], [List.replicate 64 48])]).map
        fun (v : MixVote) => decryptStr v.ciphertext (generateKeysFrom 11 13).2)
      ≠ ([MixVote.mk (decDigits 5376)].map
        fun (v : MixVote) => decryptStr v.ciphertext (generateKeysFrom 11 13).2) ∧
    ([MixVote.mk (decDigits 5376)].map
        fun (v : MixVote) => decryptStr v.ciphertext (generateKeysFrom 11 13).2)
      = [some 1] := by
  decide

/-! ### Claim C5: `generateNullifier` is not deterministic in its declared
inputs -/

set_option maxRecDepth 100000 in
/-- C5 counterexample: two calls with identical `(userId, electionId,
randomness)` (`"u"`, `"e"`, `"r"`) and identical proof nonce, but made at
`Date.now()` values `0` and `1`, produce different nullifier values. -/
theorem generateNullifier_time_dependent_counterexample :
    (generateNullifier [117] [101] [114] 0 1).map NullifierData.nullifier
      ≠ (generateNullifier [117] [101] [114] 1 1).map NullifierData.nullifier := by
  decide

/-- C5 amended: `generateNullifier` folds `Date.now()` into the hashed
pre-image as a fourth component, so the nullifier value is deterministic in
`(userId, electionId, randomness, timestamp)` — in particular it does not
depend on the proof nonce — but not in the declared triple alone. -/
theorem generateNullifier_deterministic_given_timestamp
    (u e r : List ℕ) (t rb1 rb2 : ℕ) :
    (generateNullifier u e r t rb1).map NullifierData.nullifier
      = (generateNullifier u e r t rb2).map NullifierData.nullifier := by
  unfold generateNullifier
  by_cases h : nullifierScalar u e r t = 0 <;> simp [h]

/-! ### Claim C6: simulated branches are not checked -/

set_option maxRecDepth 100000 in
/-- C6 counterexample: a two-candidate bundle whose simulated branch carries
`(a, c, z) = (g·7, 1, 2)` against commitment `C = g·3`, violating the
OR-equation `g·z = a + c·C` (`2 ≠ 7 + 3`) — yet `verifyProof` returns the
valid outcome, because `verifySigmaProof` accepts every simulated branch
that merely parses. -/
theorem verifyProof_accepts_bad_simulated_counterexample :
    verifyProof
      ⟨[⟨0, pointToHex (pointBaseMul 5), [], hexDigits 5, .real⟩,
        ⟨1, pointToHex (pointBaseMul 7), hexDigits 1, hexDigits 2, .simulated⟩],
       generateChallenge
        [⟨0, pointToHex (pointBaseMul 5), [], hexDigits 5, .real⟩,
         ⟨1, pointToHex (pointBaseMul 7), hexDigits 1, hexDigits 2, .simulated⟩]⟩
      (pointBaseMul 3) [[65], [66]] = .ok ∧
    specSimulatedCheck
      ⟨1, pointToHex (pointBaseMul 7), hexDigits 1, hexDigits 2, .simulated⟩
      (pointBaseMul 3) = false := by
  decide

/-- C6 amended: `verifyProof` checks no equation at all on simulated
branches — `verifySigmaProof` accepts a simulated branch exactly when its
`a`, `c` and `z` fields parse, regardless of the OR-proof relation; only
real branches (`g^z = a`) and the aggregate challenge are checked. -/
theorem verifySigmaProof_simulated_parse_only (sp : SigmaProof) (C : CurvePt)
    (htag : sp.tag = .simulated) :
    verifySigmaProof sp C =
      ((pointFromHex sp.a).isSome &&
        ((parseHex sp.c).isSome && (parseHex sp.z).isSome)) := by
  cases hpa : pointFromHex sp.a with
  | none => simp [verifySigmaProof, hpa]
  | some a =>
    cases hc : parseHex sp.c <;> cases hz : parseHex sp.z <;>
      simp [verifySigmaProof, hpa, htag, hc, hz]

/-- Witness for the amended C6 at the counterexample's simulated branch. -/
theorem verifySigmaProof_simulated_parse_only_witness :
    verifySigmaProof
      ⟨1, pointToHex (pointBaseMul 7), hexDigits 1, hexDigits 2, .simulated⟩
      (pointBaseMul 3)
      = ((pointFromHex (pointToHex (pointBaseMul 7))).isSome &&
          ((parseHex (hexDigits 1)).isSome && (parseHex (hexDigits 2)).isSome)) :=
  verifySigmaProof_simulated_parse_only _ _ rfl

/-! ### Claim C7: the recomputed shuffle commitment is never compared -/

set_option maxRecDepth 100000 in
/-- C7 counterexample: equal-length before/after lists with a proof whose
embedded commitment (`"x"`) cannot equal the recomputed commitment (a
64-char digest) — yet `verifyShuffleProof` returns `isValid: true`: the
recomputed commitment is dead code and no comparison happens. -/
theorem verifyShuffleProof_no_commitment_check_counterexample :
    (verifyShuffleProof ⟨0, [120], [], true⟩ [[49]] [[50]]).isValid = true ∧
    [120] ≠ expectedShuffleCommitment [[49]] [[50]] := by
  decide

/-- C7 amended: `verifyShuffleProof` returns `isValid: false` exactly on a
before/after length mismatch; when the lengths agree it returns
`isValid: true` unconditionally, echoing the proof's own commitment without
comparing it to anything. -/
theorem verifyShuffleProof_isValid_iff_length (proof : ShuffleProof)
    (originalVotes shuffledVotes : List (List ℕ)) :
    (verifyShuffleProof proof originalVotes shuffledVotes).isValid
      = (originalVotes.length == shuffledVotes.length) := by
  unfold verifyShuffleProof
  by_cases h : originalVotes.length = shuffledVotes.length <;>
    simp [h, ShuffleVerdict.isValid]

/-! ### Claim C10: exact behavior of `verifyNullifierProof` -/

/-- Every decimal digit string is non-empty. -/
theorem decDigits_length_pos (n : ℕ) : 0 < (decDigits n).length := by
  rw [decDigits]
  by_cases h : n < 10 <;> simp [decDigitsGo, h]

/-- C10: `verifyNullifierProof` returns `true` exactly when the stored
nullifier equals the encoding of `g^s`, where `s` is the SHA-256 of
`userId:electionId:randomnessUsed` reduced mod the curve order (with the
side condition `s ≠ 0`, since the library's `multiply` rejects the zero
scalar and the caught throw yields `false`); the companion proof's
`commitment` and `response` fields are never examined; and the recomputed
pre-image omits the timestamp component that `generateNullifier` hashes. -/
theorem verifyNullifierProof_spec (d : NullifierData) (u e : List ℕ) :
    (verifyNullifierProof d u e = true ↔
      (verifyNullifierScalar u e d.proof.randomnessUsed ≠ 0 ∧
       d.nullifier = pointToHex (pointBaseMul
         (verifyNullifierScalar u e d.proof.randomnessUsed)))) ∧
    (∀ c' r', verifyNullifierProof ⟨d.nullifier, ⟨c', r', d.proof.randomnessUsed⟩⟩ u e
        = verifyNullifierProof d u e) ∧
    (∀ t, u ++ [58] ++ e ++ [58] ++ d.proof.randomnessUsed
        ≠ u ++ [58] ++ e ++ [58] ++ d.proof.randomnessUsed ++ [58] ++ decDigits t) := by
  refine ⟨?_, fun c' r' => rfl, ?_⟩
  · unfold verifyNullifierProof
    by_cases h : verifyNullifierScalar u e d.proof.randomnessUsed = 0
    · simp [h]
    · rw [if_neg h]
      simp only [beq_iff_eq]
      constructor
      · intro he
        exact ⟨h, he.symm⟩
      · rintro ⟨-, he⟩
        exact he.symm
  · intro t he
    have hlen := congrArg List.length he
    simp only [List.length_append] at hlen
    have hpos := decDigits_length_pos t
    omega

end Voting
